import Mathlib

/-!
# tableexporter: aggregation buffer, flush scheduler and batched upsert writer

A shallow embedding of `src/tableexporter/db.go`.

* Go strings are lists of characters (`GoString`).
* `float64` sample values are an arbitrary linearly ordered type `α`
  (no NaN); the conversion `float64(int64)` is a parameter.
* `map[string]float64` is an association list; the order of the list stands
  for the order in which a `range` loop visits the map, so a statement that
  holds for every list holds for every iteration order.
* The store behind `ExecContext` is a stream `exec : Nat → Bool`: the result
  of the n-th call made during a flush (`true` when `err == nil`).
* Mutex operations, timer creation, store calls, sleeps and log lines are
  recorded as an event trace.
-/

namespace TableExporter

/-! ## Constants, strings -/

/-- Go strings. -/
abbrev GoString := List Char

/-- const DB_WRITE_RETRIES = 3 -/
def DB_WRITE_RETRIES : Nat := 3

/-- const FLUSH_INTERVAL = 60 * time.Second, in seconds. -/
def FLUSH_INTERVAL : Nat := 60

/-- const MAX_CHUNK_SIZE = 50 -/
def MAX_CHUNK_SIZE : Nat := 50

/-- The key separator. -/
def SEP : Char := '|'

/-- strings.Split(s, "|"): the pieces of `s` between separators; one more piece
than there are separators. -/
def Split : GoString → List GoString
  | [] => [[]]
  | c :: cs =>
    if c = SEP then [] :: Split cs
    else
      match Split cs with
      | [] => [[c]]
      | p :: ps => (c :: p) :: ps

/-- fmt.Sprintf("%s|%s|%s", metricName, host, servingEndpoint) -/
def Sprintf (metricName host servingEndpoint : GoString) : GoString :=
  metricName ++ SEP :: (host ++ SEP :: servingEndpoint)

/-- strings.Join(elems, sep) -/
def Join (elems : List GoString) (sep : GoString) : GoString :=
  sep.intercalate elems

/-! ## pdata: the metrics batch handed to pushMetrics -/

/-- pmetric.NumberDataPoint, by ValueType(). -/
inductive NumberDataPoint (α : Type) where
  | Int (v : Int)
  | Double (v : α)
  | Empty
  deriving DecidableEq

/-- The payload of a pmetric.Metric, by Type(). Types other than gauge and sum
(histogram, summary, ...) carry nothing pushMetrics reads. -/
inductive MetricData (α : Type) where
  | Gauge (dataPoints : List (NumberDataPoint α))
  | Sum (dataPoints : List (NumberDataPoint α))
  | Other
  deriving DecidableEq

/-- pmetric.Metric -/
structure Metric (α : Type) where
  Name : GoString
  data : MetricData α
  deriving DecidableEq

/-- pmetric.ScopeMetrics -/
structure ScopeMetrics (α : Type) where
  Metrics : List (Metric α)
  deriving DecidableEq

/-- pmetric.ResourceMetrics; attribute values are taken after AsString(). -/
structure ResourceMetrics (α : Type) where
  Attributes : List (GoString × GoString)
  scopeMetrics : List (ScopeMetrics α)
  deriving DecidableEq

/-- pcommon.Map.Get: the value of the first attribute with that key. -/
def attrGet : List (GoString × GoString) → GoString → Option GoString
  | [], _ => none
  | (k, v) :: rest, key => if k = key then some v else attrGet rest key

/-! ## EndpointRegex -/

/-- Remove a literal from the front of a string, when it is there. -/
def dropLit : GoString → GoString → Option GoString
  | [], s => some s
  | _ :: _, [] => none
  | p :: ps, c :: cs => if p = c then dropLit ps cs else none

/-- The pattern /serving-endpoints/([^/]+)/metrics matched at the start of
`s`; the result is capture group 1. The group cannot cross a slash, so the
greedy run of non-slash characters is the only candidate. -/
def matchHere (s : GoString) : Option GoString :=
  match dropLit "/serving-endpoints/".toList s with
  | none => none
  | some rest =>
    match rest.takeWhile (fun c => c != '/'),
        dropLit "/metrics".toList (rest.dropWhile (fun c => c != '/')) with
    | g :: gs, some _ => some (g :: gs)
    | _, _ => none

/-- EndpointRegex.FindStringSubmatch(s), reduced to what the caller reads:
`some match[1]` for the leftmost match, `none` when there is no match. -/
def FindStringSubmatch : GoString → Option GoString
  | [] => matchHere []
  | c :: cs =>
    match matchHere (c :: cs) with
    | some g => some g
    | none => FindStringSubmatch cs

/-! ## map[string]float64 -/

/-- Go map with string keys. -/
abbrev GoMap (α : Type) := List (GoString × α)

/-- Map read: `v, ok := m[key]`. -/
def mapGet {α : Type} : GoMap α → GoString → Option α
  | [], _ => none
  | (k, v) :: rest, key => if k = key then some v else mapGet rest key

/-- Map write: `m[key] = value`. -/
def mapSet {α : Type} : GoMap α → GoString → α → GoMap α
  | [], key, value => [(key, value)]
  | (k, v) :: rest, key, value =>
    if k = key then (key, value) :: rest else (k, v) :: mapSet rest key value

/-! ## Events and exporter state -/

/-- zap log levels used by the exporter. -/
inductive Level where
  | Debug | Info | Warn | Error
  deriving DecidableEq

/-- One positional argument of ExecContext. -/
inductive Arg (α : Type) where
  | str (s : GoString)
  | num (v : α)
  deriving DecidableEq

/-- The MERGE statement of flush: the fixed template with its two holes filled,
the table name and the joined value placeholders. -/
structure Query where
  table : GoString
  values : GoString
  deriving DecidableEq

/-- Observable actions of the exporter. `ExecContext` carries the result of the
call (`ok` when `err == nil`); log lines carry level and message. -/
inductive Event (α : Type) where
  | Lock
  | Unlock
  | AfterFunc (d : Nat)
  | ExecContext (query : Query) (args : List (Arg α)) (ok : Bool)
  | Sleep (seconds : Nat)
  | Log (level : Level) (msg : String)
  deriving DecidableEq

/-- A non-nil *time.Timer created by time.AfterFunc with duration `d`. -/
structure Timer where
  d : Nat
  deriving DecidableEq

/-- The fields of databricksExporter that pushMetrics and flush read or write.
The mutex and the store appear through events and the `exec` stream. -/
structure databricksExporter (α : Type) where
  metricBuffer : GoMap α
  flushInterval : Nat
  flushTimer : Option Timer
  fullTableName : GoString
  deriving DecidableEq

/-- The exporter built by newDatabricksExporter (connector creation succeeded). -/
def newDatabricksExporter {α : Type} (table : GoString) : databricksExporter α :=
  { metricBuffer := [], flushInterval := FLUSH_INTERVAL, flushTimer := none,
    fullTableName := table }

/-! ## pushMetrics -/

/-- getValueFromDataPoint -/
def getValueFromDataPoint {α : Type} (float64 : Int → α) : NumberDataPoint α → α
  | .Int v => float64 v
  | .Double v => v
  | .Empty => float64 0

/-- Loop state of pushMetrics: tempBuffer and the log lines written so far. -/
structure PushState (α : Type) where
  tempBuffer : GoMap α
  log : List (Event α)
  deriving DecidableEq

/-- Body of the data point loops (identical for gauge and sum). The comparison
`value > curr` is taken in a linear order: NaN, on which the comparison of
float64 is not total, is outside the model. -/
def pushDataPoint {α : Type} [LinearOrder α] (float64 : Int → α)
    (metricName host servingEndpoint : GoString)
    (st : PushState α) (dp : NumberDataPoint α) : PushState α :=
  let value := getValueFromDataPoint float64 dp
  let key := Sprintf metricName host servingEndpoint
  match mapGet st.tempBuffer key with
  | some curr =>
    if value > curr then { st with tempBuffer := mapSet st.tempBuffer key value } else st
  | none => { st with tempBuffer := mapSet st.tempBuffer key value }

/-- Body of the loop over metricsSlice: the switch on m.Type(). -/
def pushMetric {α : Type} [LinearOrder α] (float64 : Int → α)
    (host servingEndpoint : GoString) (st : PushState α) (m : Metric α) : PushState α :=
  match m.data with
  | .Gauge dataPoints =>
    dataPoints.foldl (pushDataPoint float64 m.Name host servingEndpoint) st
  | .Sum dataPoints =>
    dataPoints.foldl (pushDataPoint float64 m.Name host servingEndpoint) st
  | .Other =>
    { st with log := st.log ++ [Event.Log Level.Debug "Skipping unsupported metric type"] }

/-- The host label of a resource. -/
def hostOf (attrs : List (GoString × GoString)) : GoString :=
  match attrGet attrs "server.address".toList with
  | some val => val
  | none => []

/-- The servingEndpoint label of a resource. -/
def servingEndpointOf (attrs : List (GoString × GoString)) : GoString :=
  match attrGet attrs "metrics_path".toList with
  | some val =>
    match FindStringSubmatch val with
    | some g => g
    | none => []
  | none => []

/-- Body of the loop over resourceMetrics. -/
def pushResource {α : Type} [LinearOrder α] (float64 : Int → α)
    (st : PushState α) (rm : ResourceMetrics α) : PushState α :=
  let host := hostOf rm.Attributes
  let servingEndpoint := servingEndpointOf rm.Attributes
  rm.scopeMetrics.foldl
    (fun st sm => sm.Metrics.foldl (pushMetric float64 host servingEndpoint) st) st

/-- startFlushTimer -/
def startFlushTimer {α : Type} (d : databricksExporter α) :
    databricksExporter α × List (Event α) :=
  ({ d with flushTimer := some ⟨d.flushInterval⟩ }, [Event.AfterFunc d.flushInterval])

/-- pushMetrics: the exporter after the call and the events of the call. -/
def pushMetrics {α : Type} [LinearOrder α] (float64 : Int → α)
    (d : databricksExporter α) (metrics : List (ResourceMetrics α)) :
    databricksExporter α × List (Event α) :=
  let st := metrics.foldl (pushResource float64) ⟨[], []⟩
  let d1 := { d with
    metricBuffer := st.tempBuffer.foldl (fun mb (kv : GoString × α) => mapSet mb kv.1 kv.2) d.metricBuffer }
  match d1.flushTimer with
  | none =>
    let r := startFlushTimer d1
    (r.1, [Event.Lock] ++ st.log ++ r.2 ++ [Event.Unlock])
  | some _ => (d1, [Event.Lock] ++ st.log ++ [Event.Unlock])

/-! ## flush -/

/-- Loop state of the per-chunk entry loop: valuePlaceholders, args and the log
lines written so far. -/
structure ChunkState (α : Type) where
  valuePlaceholders : List GoString
  args : List (Arg α)
  log : List (Event α)
  deriving DecidableEq

/-- Body of the loop `for j := i; j < end; j++`: split the composite key, skip
the entry when it has not exactly three parts, else append one placeholder
group and four arguments. -/
def addEntry {α : Type} (st : ChunkState α) (metricEntry : GoString × α) : ChunkState α :=
  match Split metricEntry.1 with
  | [metricName, host, endpoint] =>
    { st with
      valuePlaceholders := st.valuePlaceholders ++ ["(?, ?, ?, ?)".toList],
      args := st.args ++
        [Arg.str metricName, Arg.str host, Arg.str endpoint, Arg.num metricEntry.2] }
  | _ => { st with log := st.log ++ [Event.Log Level.Warn "Invalid composite key format"] }

/-- The entry loop of one chunk, from cleared valuePlaceholders and args. -/
def buildChunk {α : Type} (chunk : List (GoString × α)) : ChunkState α :=
  chunk.foldl addEntry ⟨[], [], []⟩

/-- The retry loop `for attempt := 1; attempt <= DB_WRITE_RETRIES; attempt++`.
`calls` counts the store calls made so far in this flush, `errNil` is
`err == nil`. Returns the events, the new call count and the final `err == nil`;
`none` only when the fuel runs out. -/
def retryLoop {α : Type} (exec : Nat → Bool) (query : Query) (args : List (Arg α)) :
    Nat → Nat → Nat → Bool → Option (List (Event α) × Nat × Bool)
  | 0, _, _, _ => none
  | fuel + 1, attempt, calls, errNil =>
    if attempt ≤ DB_WRITE_RETRIES then
      let ok := exec calls
      if ok then
        some ([Event.ExecContext query args ok,
               Event.Log Level.Info "Successfully flushed metrics chunk"], calls + 1, true)
      else
        match retryLoop exec query args fuel (attempt + 1) (calls + 1) false with
        | none => none
        | some (evs, calls1, errNil1) =>
          some (Event.ExecContext query args ok ::
                Event.Log Level.Warn "Flush failed for chunk, retrying..." ::
                Event.Sleep 5 :: evs, calls1, errNil1)
    else some ([], calls, errNil)

/-- What one iteration of the chunk loop did: the statement it built
(placeholders and bound arguments) and its events in program order. -/
structure ChunkRun (α : Type) where
  valuePlaceholders : List GoString
  args : List (Arg α)
  events : List (Event α)
  deriving DecidableEq

/-- The chunk loop `for i := 0; i < len(metricEntries); i += MAX_CHUNK_SIZE`,
from index `i` on. `none` only when the fuel runs out. -/
def flushLoop {α : Type} (exec : Nat → Bool) (fullTableName : GoString)
    (metricEntries : List (GoString × α)) :
    Nat → Nat → Nat → Option (List (ChunkRun α))
  | 0, _, _ => none
  | fuel + 1, i, calls =>
    if i < metricEntries.length then
      let end_ := if i + MAX_CHUNK_SIZE > metricEntries.length then metricEntries.length
        else i + MAX_CHUNK_SIZE
      let st := buildChunk ((metricEntries.take end_).drop i)
      let query : Query := ⟨fullTableName, Join st.valuePlaceholders ", ".toList⟩
      match retryLoop exec query st.args (DB_WRITE_RETRIES + 1) 1 calls true with
      | none => none
      | some (evs, calls1, errNil) =>
        let failed : List (Event α) :=
          if errNil then []
          else [Event.Log Level.Error "Failed to flush metrics chunk after retries"]
        match flushLoop exec fullTableName metricEntries fuel (i + MAX_CHUNK_SIZE) calls1 with
        | none => none
        | some rest => some (⟨st.valuePlaceholders, st.args, st.log ++ evs ++ failed⟩ :: rest)
    else some []

/-- flush: the exporter after the call, the chunk iterations and the event
trace of the call. The mutex is taken on entry and released by the deferred
Unlock on return. `exec n` is the result of the n-th ExecContext call. -/
def flush {α : Type} (exec : Nat → Bool) (d : databricksExporter α) :
    Option (databricksExporter α × List (ChunkRun α) × List (Event α)) :=
  if d.metricBuffer.length = 0 then
    some (d, [], [Event.Lock, Event.Log Level.Info "No metrics to flush.", Event.Unlock])
  else
    let metricEntries := d.metricBuffer
    match flushLoop exec d.fullTableName metricEntries (metricEntries.length + 1) 0 0 with
    | none => none
    | some chunks =>
      some ({ d with metricBuffer := [], flushTimer := none }, chunks,
        [Event.Lock] ++ chunks.flatMap (fun c => c.events) ++ [Event.Unlock])

/-! ## The MERGE statement: metric_values in WHEN MATCHED

The SQL functions are modelled after the Databricks SQL reference; an SQL
error is `none`. -/

/-- SQL array_repeat(element, count): no elements for a count below one. -/
def array_repeat {α : Type} (element : α) (count : Int) : List α :=
  List.replicate count.toNat element

/-- SQL slice(x, start, length): 1-based start, counted from the end when
negative; start 0 and negative length are errors; a start outside the array
gives the empty array. -/
def slice {α : Type} (x : List α) (start length : Int) : Option (List α) :=
  if start = 0 then none
  else if length < 0 then none
  else
    let startIndex : Int := if start < 0 then start + x.length else start - 1
    if startIndex < 0 ∨ startIndex ≥ x.length then some []
    else some ((x.drop startIndex.toNat).take length.toNat)

/-- SQL concat on arrays. -/
def concat {α : Type} (a b : List α) : List α := a ++ b

/-- SQL LEAST on two integers. -/
def LEAST (a b : Int) : Int := if a ≤ b then a else b

/-- SQL CAST(x AS INT): the value when it fits 32 bits; outside that range the
result depends on the session mode and is left undefined. -/
def CAST_INT (x : Int) : Option Int :=
  if -2147483648 ≤ x ∧ x ≤ 2147483647 then some x else none

/-- The expression assigned to metric_values in WHEN MATCHED, as a function of
the stored array, source.new_value and
timestampdiff(minute, target.updated_at, current_timestamp()). -/
def metric_values_matched {α : Type} (metric_values : List α) (new_value : α)
    (timestampdiff : Int) : Option (List α) :=
  if timestampdiff ≥ 60 then some (array_repeat new_value 60)
  else if timestampdiff ≥ 1 then
    match CAST_INT (LEAST 60 timestampdiff) with
    | none => none
    | some n =>
      match slice metric_values (n + 1) 60 with
      | none => none
      | some kept => some (concat kept (array_repeat new_value n))
  else some metric_values

/-! ## Specification-side definitions -/

/-- Reference mergeRow, in the words of the specification: 60 copies of `v` when
`m ≥ 60`; `old` without its first `m` elements followed by `m` copies of `v`
when `1 ≤ m < 60`; `old` unchanged when `m = 0`. -/
def mergeRow {α : Type} (old : List α) (v : α) (m : Nat) : List α :=
  if 60 ≤ m then List.replicate 60 v
  else if 1 ≤ m then old.drop m ++ List.replicate m v
  else old

/-- The number of store calls of a chunk whose attempts return `r 0`, `r 1`, ...:
the attempts up to the first success, all three when none of them succeeds. -/
def attemptsFor (r : Nat → Bool) : Nat :=
  if r 0 then 1 else if r 1 then 2 else 3

/-- The consecutive blocks of `C` elements of a list (the last one shorter when
`C` does not divide the length). -/
def blocks {β : Type} (C : Nat) (l : List β) : List (List β) :=
  (List.range ((l.length + C - 1) / C)).map (fun k => (l.drop (C * k)).take C)

/-- The decode step in the words of the specification: the four arguments of
the row of an entry whose key splits into exactly three parts, nothing for any
other entry. -/
def decodeRow {α : Type} (entry : GoString × α) : List (Arg α) :=
  match Split entry.1 with
  | [p0, p1, p2] => [Arg.str p0, Arg.str p1, Arg.str p2, Arg.num entry.2]
  | _ => []

/-- An entry whose key splits on the separator into exactly three parts. -/
def validKey {α : Type} (entry : GoString × α) : Bool :=
  (Split entry.1).length = 3

/-- The update pushSample(key, value) in the words of the specification: insert
when the key has no entry, else replace only by a strictly greater value. -/
def pushSample {α : Type} [LinearOrder α] (buf : GoMap α) (kv : GoString × α) : GoMap α :=
  match mapGet buf kv.1 with
  | some curr => if kv.2 > curr then mapSet buf kv.1 kv.2 else buf
  | none => mapSet buf kv.1 kv.2

/-- The (key, value) samples one pushMetrics call delivers for a metric, in
delivery order. -/
def samplesOfMetric {α : Type} (float64 : Int → α) (host servingEndpoint : GoString)
    (m : Metric α) : List (GoString × α) :=
  match m.data with
  | .Gauge dataPoints =>
    dataPoints.map
      (fun dp => (Sprintf m.Name host servingEndpoint, getValueFromDataPoint float64 dp))
  | .Sum dataPoints =>
    dataPoints.map
      (fun dp => (Sprintf m.Name host servingEndpoint, getValueFromDataPoint float64 dp))
  | .Other => []

/-- The (key, value) samples one pushMetrics call delivers, in delivery order. -/
def samples {α : Type} (float64 : Int → α) (metrics : List (ResourceMetrics α)) :
    List (GoString × α) :=
  metrics.flatMap (fun rm =>
    rm.scopeMetrics.flatMap (fun sm =>
      sm.Metrics.flatMap
        (samplesOfMetric float64 (hostOf rm.Attributes) (servingEndpointOf rm.Attributes))))

/-- The values delivered for one key, in delivery order. -/
def valuesFor {α : Type} (key : GoString) (l : List (GoString × α)) : List α :=
  (l.filter (fun kv => kv.1 = key)).map (fun kv => kv.2)

/-- Number of ExecContext calls in a trace. -/
def execCount {α : Type} : List (Event α) → Nat
  | [] => 0
  | Event.ExecContext _ _ _ :: t => execCount t + 1
  | _ :: t => execCount t

/-- The results of the ExecContext calls of a trace, in order. -/
def execResults {α : Type} : List (Event α) → List Bool
  | [] => []
  | Event.ExecContext _ _ ok :: t => ok :: execResults t
  | _ :: t => execResults t

/-- A store interaction: an ExecContext call or a back-off sleep. -/
def isStoreCall {α : Type} : Event α → Bool
  | Event.ExecContext _ _ _ => true
  | Event.Sleep _ => true
  | _ => false

/-- A mutex operation. -/
def isLockOp {α : Type} : Event α → Bool
  | Event.Lock => true
  | Event.Unlock => true
  | _ => false

/-- Scan of a trace with the lock state `held`: true when no store interaction
lies between a Lock and its matching Unlock. -/
def noStoreCallUnderLock {α : Type} : Bool → List (Event α) → Bool
  | _, [] => true
  | _, Event.Lock :: t => noStoreCallUnderLock true t
  | _, Event.Unlock :: t => noStoreCallUnderLock false t
  | held, e :: t => (!(held && isStoreCall e)) && noStoreCallUnderLock held t

/-- Scan of a trace with the lock state `held`: true when every store
interaction happens while the lock is held. -/
def storeCallsUnderLock {α : Type} : Bool → List (Event α) → Bool
  | _, [] => true
  | _, Event.Lock :: t => storeCallsUnderLock true t
  | _, Event.Unlock :: t => storeCallsUnderLock false t
  | held, e :: t => (held || !isStoreCall e) && storeCallsUnderLock held t

/-- A buffer of `n` entries with pairwise different well-formed keys
m|h|e, m|h|ee, m|h|eee, ... (one metric on one host, `n` serving endpoints). -/
def endpointEntries (n : Nat) : GoMap Int :=
  (List.range n).map
    (fun i => (Sprintf "m".toList "h".toList (List.replicate (i + 1) 'e'), 1))

/-! # Lemmas -/

/-! ## strings.Split -/

theorem Split_ne_nil (s : GoString) : Split s ≠ [] := by
  cases s with
  | nil => simp [Split]
  | cons c cs =>
    simp only [Split]
    split
    · simp
    · split <;> simp

theorem Split_no_sep (s : GoString) (h : SEP ∉ s) : Split s = [s] := by
  induction s with
  | nil => rfl
  | cons c cs ih =>
    have hc : c ≠ SEP := fun e => h (by simp [e])
    have hcs : SEP ∉ cs := fun e => h (by simp [e])
    simp [Split, hc, ih hcs]

theorem Split_append_sep (a rest : GoString) (h : SEP ∉ a) :
    Split (a ++ SEP :: rest) = a :: Split rest := by
  induction a with
  | nil => simp [Split]
  | cons c cs ih =>
    have hc : c ≠ SEP := fun e => h (by simp [e])
    have hcs : SEP ∉ cs := fun e => h (by simp [e])
    simp [Split, hc, ih hcs]

theorem Split_Sprintf (name host endpoint : GoString)
    (hn : SEP ∉ name) (hh : SEP ∉ host) (he : SEP ∉ endpoint) :
    Split (Sprintf name host endpoint) = [name, host, endpoint] := by
  unfold Sprintf
  rw [Split_append_sep _ _ hn, Split_append_sep _ _ hh, Split_no_sep _ he]

/-! ## the entry loop of a chunk -/

theorem addEntry_args {α : Type} (st : ChunkState α) (e : GoString × α) :
    (addEntry st e).args = st.args ++ decodeRow e := by
  unfold addEntry decodeRow
  split <;> simp_all

theorem addEntry_placeholders {α : Type} (st : ChunkState α) (e : GoString × α) :
    (addEntry st e).valuePlaceholders =
      st.valuePlaceholders ++ (if validKey e then ["(?, ?, ?, ?)".toList] else []) := by
  unfold addEntry validKey
  split
  · next h => simp [h]
  · next h =>
    have : (Split e.1).length ≠ 3 := by
      intro hl
      match hs : Split e.1, hl with
      | [a, b, c], _ => exact h a b c hs
    simp [this]

theorem addEntry_log {α : Type} (st : ChunkState α) (e : GoString × α) :
    (addEntry st e).log = st.log ∨
      (addEntry st e).log =
        st.log ++ [Event.Log Level.Warn "Invalid composite key format"] := by
  unfold addEntry
  split <;> simp

theorem foldl_addEntry_args {α : Type} (l : List (GoString × α)) (st : ChunkState α) :
    (l.foldl addEntry st).args = st.args ++ l.flatMap decodeRow := by
  induction l generalizing st with
  | nil => simp
  | cons e l ih => simp [ih, addEntry_args]

theorem foldl_addEntry_placeholders {α : Type} (l : List (GoString × α)) (st : ChunkState α) :
    (l.foldl addEntry st).valuePlaceholders =
      st.valuePlaceholders ++
        List.replicate (l.filter validKey).length "(?, ?, ?, ?)".toList := by
  induction l generalizing st with
  | nil => simp
  | cons e l ih =>
    simp only [List.foldl_cons, ih, addEntry_placeholders, List.filter_cons]
    by_cases h : validKey e = true
    · simp [h, List.replicate_succ]
    · simp [h]

theorem foldl_addEntry_log {α : Type} (l : List (GoString × α)) (st : ChunkState α)
    (h : ∀ e ∈ st.log, ∃ lv msg, e = Event.Log lv msg) :
    ∀ e ∈ (l.foldl addEntry st).log, ∃ lv msg, e = Event.Log lv msg := by
  induction l generalizing st with
  | nil => simpa using h
  | cons x l ih =>
    simp only [List.foldl_cons]
    apply ih
    intro e he
    rcases addEntry_log st x with h1 | h1
    · rw [h1] at he; exact h e he
    · rw [h1] at he
      rcases List.mem_append.1 he with h2 | h2
      · exact h e h2
      · simp at h2; exact ⟨_, _, h2⟩

theorem buildChunk_args {α : Type} (b : List (GoString × α)) :
    (buildChunk b).args = b.flatMap decodeRow := by
  simp [buildChunk, foldl_addEntry_args]

theorem buildChunk_placeholders {α : Type} (b : List (GoString × α)) :
    (buildChunk b).valuePlaceholders =
      List.replicate (b.filter validKey).length "(?, ?, ?, ?)".toList := by
  simp [buildChunk, foldl_addEntry_placeholders]

theorem buildChunk_log {α : Type} (b : List (GoString × α)) :
    ∀ e ∈ (buildChunk b).log, ∃ lv msg, e = Event.Log lv msg :=
  foldl_addEntry_log b _ (by simp)

theorem decodeRow_length {α : Type} (e : GoString × α) :
    (decodeRow e).length = if validKey e then 4 else 0 := by
  unfold decodeRow validKey
  split
  · next h => simp [h]
  · next h =>
    have : (Split e.1).length ≠ 3 := by
      intro hl
      match hs : Split e.1, hl with
      | [a, b, c], _ => exact h a b c hs
    simp [this]

theorem flatMap_decodeRow_length {α : Type} (b : List (GoString × α)) :
    (b.flatMap decodeRow).length = 4 * (b.filter validKey).length := by
  induction b with
  | nil => simp
  | cons e l ih =>
    simp only [List.flatMap_cons, List.length_append, ih, decodeRow_length, List.filter_cons]
    by_cases h : validKey e = true
    · simp [h]; omega
    · simp [h]

/-! ## traces -/

theorem execCount_append {α : Type} (a b : List (Event α)) :
    execCount (a ++ b) = execCount a + execCount b := by
  induction a with
  | nil => simp [execCount]
  | cons e t ih =>
    cases e <;> simp [execCount, ih]
    omega

theorem execResults_append {α : Type} (a b : List (Event α)) :
    execResults (a ++ b) = execResults a ++ execResults b := by
  induction a with
  | nil => simp [execResults]
  | cons e t ih => cases e <;> simp [execResults, ih]

theorem execCount_logs {α : Type} (l : List (Event α))
    (h : ∀ e ∈ l, ∃ lv msg, e = Event.Log lv msg) : execCount l = 0 := by
  induction l with
  | nil => rfl
  | cons e t ih =>
    obtain ⟨lv, msg, rfl⟩ := h e (by simp)
    simp only [execCount]
    exact ih (fun x hx => h x (by simp [hx]))

theorem execResults_logs {α : Type} (l : List (Event α))
    (h : ∀ e ∈ l, ∃ lv msg, e = Event.Log lv msg) : execResults l = [] := by
  induction l with
  | nil => rfl
  | cons e t ih =>
    obtain ⟨lv, msg, rfl⟩ := h e (by simp)
    simp only [execResults]
    exact ih (fun x hx => h x (by simp [hx]))

/-! ## blocks -/

theorem blocks_length {β : Type} (C : Nat) (l : List β) :
    (blocks C l).length = (l.length + C - 1) / C := by
  simp [blocks]

theorem blocks_nil {β : Type} : blocks MAX_CHUNK_SIZE ([] : List β) = [] := by
  simp [blocks, MAX_CHUNK_SIZE]

theorem blocks_cons {β : Type} (l : List β) (h : l ≠ []) :
    blocks MAX_CHUNK_SIZE l =
      l.take MAX_CHUNK_SIZE :: blocks MAX_CHUNK_SIZE (l.drop MAX_CHUNK_SIZE) := by
  have hpos : 0 < l.length := List.length_pos.2 h
  have hn : (l.length + MAX_CHUNK_SIZE - 1) / MAX_CHUNK_SIZE =
      ((l.drop MAX_CHUNK_SIZE).length + MAX_CHUNK_SIZE - 1) / MAX_CHUNK_SIZE + 1 := by
    simp only [MAX_CHUNK_SIZE, List.length_drop]
    omega
  unfold blocks
  rw [hn, List.range_succ_eq_map]
  simp only [List.map_cons, List.map_map, Nat.mul_zero, List.drop_zero, List.drop_drop]
  congr 1
  apply List.map_congr_left
  intro k _
  simp only [Function.comp, Nat.mul_succ]
  congr 2
  omega

theorem attemptsFor_pos (r : Nat → Bool) : 1 ≤ attemptsFor r := by
  unfold attemptsFor; split <;> [omega; (split <;> omega)]

theorem retryLoop_spec {α : Type} (exec : Nat → Bool) (query : Query) (args : List (Arg α))
    (calls : Nat) :
    ∃ evs ok,
      retryLoop exec query args (DB_WRITE_RETRIES + 1) 1 calls true =
        some (evs, calls + attemptsFor (fun j => exec (calls + j)), ok)
      ∧ execCount evs = attemptsFor (fun j => exec (calls + j))
      ∧ execResults evs =
          (List.range (attemptsFor (fun j => exec (calls + j)))).map (fun j => exec (calls + j))
      ∧ (∀ e ∈ evs, isLockOp e = false)
      ∧ (∀ q a r, Event.ExecContext q a r ∈ evs → q = query ∧ a = args) := by
  cases h0 : exec calls <;> cases h1 : exec (calls + 1) <;> cases h2 : exec (calls + 2) <;>
    simp [retryLoop, DB_WRITE_RETRIES, attemptsFor, h0, h1, h2, execCount, execResults,
      isLockOp, List.range_succ]

theorem chunk_slice {β : Type} (l : List β) (i : Nat) :
    (l.take (if i + MAX_CHUNK_SIZE > l.length then l.length else i + MAX_CHUNK_SIZE)).drop i =
      (l.drop i).take MAX_CHUNK_SIZE := by
  rw [List.drop_take]
  split
  · next h =>
    have h1 : (l.drop i).length ≤ l.length - i := by simp
    have h2 : (l.drop i).length ≤ MAX_CHUNK_SIZE := by simp; omega
    rw [List.take_of_length_le h1, List.take_of_length_le h2]
  · next h =>
    congr 1
    omega

/-- One iteration of the chunk loop, read off a successful run. -/
theorem flushLoop_inv {α : Type} (exec : Nat → Bool) (table : GoString)
    (entries : List (GoString × α)) (fuel i calls : Nat) (chunks : List (ChunkRun α))
    (h : flushLoop exec table entries (fuel + 1) i calls = some chunks) :
    (entries.length ≤ i ∧ chunks = []) ∨
    (i < entries.length ∧ ∃ evs ok rest,
      retryLoop exec ⟨table, Join (buildChunk ((entries.drop i).take MAX_CHUNK_SIZE)).valuePlaceholders
          ", ".toList⟩
        (buildChunk ((entries.drop i).take MAX_CHUNK_SIZE)).args (DB_WRITE_RETRIES + 1) 1 calls true =
        some (evs, calls + attemptsFor (fun j => exec (calls + j)), ok)
      ∧ flushLoop exec table entries fuel (i + MAX_CHUNK_SIZE)
          (calls + attemptsFor (fun j => exec (calls + j))) = some rest
      ∧ (∃ failed : List (Event α), (∀ e ∈ failed, ∃ lv msg, e = Event.Log lv msg)
          ∧ chunks =
            ⟨(buildChunk ((entries.drop i).take MAX_CHUNK_SIZE)).valuePlaceholders,
             (buildChunk ((entries.drop i).take MAX_CHUNK_SIZE)).args,
             (buildChunk ((entries.drop i).take MAX_CHUNK_SIZE)).log ++ evs ++ failed⟩ :: rest)) := by
  unfold flushLoop at h
  by_cases hi : i < entries.length
  · right
    refine ⟨hi, ?_⟩
    rw [if_pos hi] at h
    simp only [chunk_slice] at h
    obtain ⟨evs, ok, hr, -⟩ := retryLoop_spec exec
      ⟨table, Join (buildChunk ((entries.drop i).take MAX_CHUNK_SIZE)).valuePlaceholders
          ", ".toList⟩
      (buildChunk ((entries.drop i).take MAX_CHUNK_SIZE)).args calls
    rw [hr] at h
    simp only at h
    cases hrest : flushLoop exec table entries fuel (i + MAX_CHUNK_SIZE)
          (calls + attemptsFor (fun j => exec (calls + j))) with
    | none => rw [hrest] at h; simp at h
    | some rest =>
      rw [hrest] at h
      simp only [Option.some.injEq] at h
      refine ⟨evs, ok, rest, hr, rfl, ?_⟩
      refine ⟨_, ?_, h.symm⟩
      intro e he
      split at he
      · simp at he
      · simp at he; exact ⟨_, _, he⟩
  · left
    rw [if_neg hi] at h
    simp only [Option.some.injEq] at h
    exact ⟨by omega, h.symm⟩

/-- The chunk loop returns: fuel above the number of remaining entries is enough. -/
theorem flushLoop_total {α : Type} (exec : Nat → Bool) (table : GoString)
    (entries : List (GoString × α)) :
    ∀ (fuel i calls : Nat), entries.length - i < fuel →
      ∃ chunks, flushLoop exec table entries fuel i calls = some chunks := by
  intro fuel
  induction fuel with
  | zero => intro i calls h; omega
  | succ n ih =>
    intro i calls h
    unfold flushLoop
    by_cases hi : i < entries.length
    · rw [if_pos hi]
      simp only [chunk_slice]
      obtain ⟨evs, ok, hr, -⟩ := retryLoop_spec exec
        ⟨table, Join (buildChunk ((entries.drop i).take MAX_CHUNK_SIZE)).valuePlaceholders
            ", ".toList⟩
        (buildChunk ((entries.drop i).take MAX_CHUNK_SIZE)).args calls
      rw [hr]
      obtain ⟨rest, hrest⟩ := ih (i + MAX_CHUNK_SIZE)
        (calls + attemptsFor (fun j => exec (calls + j))) (by simp [MAX_CHUNK_SIZE]; omega)
      simp only [hrest]
      exact ⟨_, rfl⟩
    · rw [if_neg hi]
      exact ⟨_, rfl⟩

/-- The statements the chunk loop builds are those of the consecutive blocks. -/
theorem flushLoop_stmts {α : Type} (exec : Nat → Bool) (table : GoString)
    (entries : List (GoString × α)) :
    ∀ (fuel i calls : Nat) (chunks : List (ChunkRun α)),
      flushLoop exec table entries fuel i calls = some chunks →
      chunks.map (fun c => (c.valuePlaceholders, c.args)) =
        (blocks MAX_CHUNK_SIZE (entries.drop i)).map
          (fun b => ((buildChunk b).valuePlaceholders, (buildChunk b).args)) := by
  intro fuel
  induction fuel with
  | zero => intro i calls chunks h; simp [flushLoop] at h
  | succ n ih =>
    intro i calls chunks h
    rcases flushLoop_inv exec table entries n i calls chunks h with
      ⟨hi, rfl⟩ | ⟨hi, evs, ok, rest, -, hrest, failed, -, rfl⟩
    · rw [List.drop_of_length_le hi, blocks_nil]; rfl
    · have hne : entries.drop i ≠ [] := by
        intro e
        have := congrArg List.length e
        simp at this
        omega
      rw [blocks_cons _ hne, List.drop_drop]
      simp only [List.map_cons]
      rw [ih _ _ _ hrest]

theorem execCount_chunk {α : Type} (log evs failed : List (Event α))
    (hl : ∀ e ∈ log, ∃ lv msg, e = Event.Log lv msg)
    (hf : ∀ e ∈ failed, ∃ lv msg, e = Event.Log lv msg) :
    execCount (log ++ evs ++ failed) = execCount evs ∧
    execResults (log ++ evs ++ failed) = execResults evs := by
  simp [execCount_append, execResults_append, execCount_logs _ hl, execCount_logs _ hf,
    execResults_logs _ hl, execResults_logs _ hf]

/-- The events of the k-th chunk iteration: its store calls are the attempts
counted by attemptsFor on the results from the chunk's first call on. -/
theorem flushLoop_events {α : Type} (exec : Nat → Bool) (table : GoString)
    (entries : List (GoString × α)) :
    ∀ (fuel i calls : Nat) (chunks : List (ChunkRun α)),
      flushLoop exec table entries fuel i calls = some chunks →
      ∀ (k : Nat) (c : ChunkRun α), chunks[k]? = some c →
        execCount c.events =
          attemptsFor (fun j =>
            exec (calls + execCount ((chunks.take k).flatMap (fun c => c.events)) + j))
        ∧ execResults c.events =
          (List.range (execCount c.events)).map (fun j =>
            exec (calls + execCount ((chunks.take k).flatMap (fun c => c.events)) + j))
        ∧ (∀ e ∈ c.events, isLockOp e = false)
        ∧ (∀ q a r, Event.ExecContext q a r ∈ c.events →
            q = ⟨table, Join c.valuePlaceholders ", ".toList⟩ ∧ a = c.args) := by
  intro fuel
  induction fuel with
  | zero => intro i calls chunks h; simp [flushLoop] at h
  | succ n ih =>
    intro i calls chunks h k c hk
    rcases flushLoop_inv exec table entries n i calls chunks h with
      ⟨hi, rfl⟩ | ⟨hi, evs, ok, rest, hr, hrest, failed, hfailed, rfl⟩
    · simp at hk
    · obtain ⟨evs2, ok2, hr2, hcnt, hres, hlock, hargs⟩ := retryLoop_spec exec
        ⟨table, Join (buildChunk ((entries.drop i).take MAX_CHUNK_SIZE)).valuePlaceholders
            ", ".toList⟩
        (buildChunk ((entries.drop i).take MAX_CHUNK_SIZE)).args calls
      rw [hr] at hr2
      simp only [Option.some.injEq, Prod.mk.injEq] at hr2
      obtain ⟨rfl, -, rfl⟩ := hr2
      have hlog := buildChunk_log ((entries.drop i).take MAX_CHUNK_SIZE)
      obtain ⟨hc1, hc2⟩ := execCount_chunk _ evs failed hlog hfailed
      cases k with
      | zero =>
        simp only [List.getElem?_cons_zero, Option.some.injEq] at hk
        subst hk
        simp only [List.take_zero, List.flatMap_nil, execCount, Nat.add_zero]
        refine ⟨by rw [hc1, hcnt], by rw [hc2, hc1, hcnt, hres], ?_, ?_⟩
        · intro e he
          simp only [List.mem_append] at he
          rcases he with (he | he) | he
          · obtain ⟨lv, msg, rfl⟩ := hlog e he; rfl
          · exact hlock e he
          · obtain ⟨lv, msg, rfl⟩ := hfailed e he; rfl
        · intro q a r he
          simp only [List.mem_append] at he
          rcases he with (he | he) | he
          · obtain ⟨lv, msg, hh⟩ := hlog _ he; cases hh
          · exact hargs q a r he
          · obtain ⟨lv, msg, hh⟩ := hfailed _ he; cases hh
      | succ k =>
        simp only [List.getElem?_cons_succ] at hk
        have := ih _ _ _ hrest k c hk
        simp only [List.take_succ_cons, List.flatMap_cons, execCount_append, hc1, hcnt]
        simpa [Nat.add_assoc] using this

theorem blocks_flatMap {β γ : Type} (f : β → List γ) :
    ∀ (n : Nat) (l : List β), l.length = n →
      (blocks MAX_CHUNK_SIZE l).flatMap (fun b => b.flatMap f) = l.flatMap f := by
  intro n
  induction n using Nat.strong_induction_on with
  | _ n ih =>
    intro l hl
    by_cases hne : l = []
    · subst hne; rw [blocks_nil]; rfl
    · rw [blocks_cons l hne, List.flatMap_cons]
      have hlt : (l.drop MAX_CHUNK_SIZE).length < n := by
        have := List.length_pos.2 hne
        simp [MAX_CHUNK_SIZE]; omega
      rw [ih _ hlt _ rfl, ← List.flatMap_append, List.take_append_drop]

theorem blocks_getElem {β : Type} (l : List β) (k : Nat) (b : List β)
    (h : (blocks MAX_CHUNK_SIZE l)[k]? = some b) :
    k < (l.length + MAX_CHUNK_SIZE - 1) / MAX_CHUNK_SIZE
    ∧ b = (l.drop (MAX_CHUNK_SIZE * k)).take MAX_CHUNK_SIZE := by
  unfold blocks at h
  rw [List.getElem?_map] at h
  cases hr : (List.range ((l.length + MAX_CHUNK_SIZE - 1) / MAX_CHUNK_SIZE))[k]? with
  | none => rw [hr] at h; simp at h
  | some j =>
    rw [hr] at h
    have hk := List.getElem?_eq_some_iff.1 hr
    obtain ⟨hk1, hk2⟩ := hk
    simp only [List.length_range] at hk1
    simp only [List.getElem_range] at hk2
    subst hk2
    simp only [Option.map_some', Option.some.injEq] at h
    exact ⟨hk1, h.symm⟩

theorem blocks_getElem_length {β : Type} (l : List β) (k : Nat) (b : List β)
    (h : (blocks MAX_CHUNK_SIZE l)[k]? = some b) :
    1 ≤ b.length ∧ b.length ≤ MAX_CHUNK_SIZE
    ∧ (k + 1 < (blocks MAX_CHUNK_SIZE l).length → b.length = MAX_CHUNK_SIZE) := by
  obtain ⟨hk, rfl⟩ := blocks_getElem l k b h
  rw [blocks_length]
  simp only [MAX_CHUNK_SIZE, List.length_take, List.length_drop] at *
  omega

theorem flush_spec {α : Type} (exec : Nat → Bool) (d : databricksExporter α) :
    (d.metricBuffer = [] ∧
      flush exec d = some (d, [],
        [Event.Lock, Event.Log Level.Info "No metrics to flush.", Event.Unlock]))
    ∨ (d.metricBuffer ≠ [] ∧ ∃ chunks,
        flushLoop exec d.fullTableName d.metricBuffer (d.metricBuffer.length + 1) 0 0 =
          some chunks
        ∧ flush exec d = some ({ d with metricBuffer := [], flushTimer := none }, chunks,
            [Event.Lock] ++ chunks.flatMap (fun c => c.events) ++ [Event.Unlock])) := by
  by_cases h : d.metricBuffer = []
  · left
    refine ⟨h, ?_⟩
    simp [flush, h]
  · right
    refine ⟨h, ?_⟩
    obtain ⟨chunks, hc⟩ := flushLoop_total exec d.fullTableName d.metricBuffer
      (d.metricBuffer.length + 1) 0 0 (by omega)
    refine ⟨chunks, hc, ?_⟩
    have : d.metricBuffer.length ≠ 0 := by
      intro e; exact h (List.length_eq_zero.1 e)
    simp [flush, this, hc]

/-- The statements of a flush, for any buffer. -/
theorem flush_stmts {α : Type} (exec : Nat → Bool) (d : databricksExporter α) :
    ∃ d1 chunks tr, flush exec d = some (d1, chunks, tr)
      ∧ tr = [Event.Lock] ++
          (if d.metricBuffer.length = 0 then [Event.Log Level.Info "No metrics to flush."]
           else chunks.flatMap (fun c => c.events)) ++ [Event.Unlock]
      ∧ chunks.map (fun c => (c.valuePlaceholders, c.args)) =
        (blocks MAX_CHUNK_SIZE d.metricBuffer).map
          (fun b => ((buildChunk b).valuePlaceholders, (buildChunk b).args))
      ∧ (∀ (k : Nat) (c : ChunkRun α), chunks[k]? = some c →
        execCount c.events =
          attemptsFor (fun j =>
            exec (execCount ((chunks.take k).flatMap (fun c => c.events)) + j))
        ∧ execResults c.events =
          (List.range (execCount c.events)).map (fun j =>
            exec (execCount ((chunks.take k).flatMap (fun c => c.events)) + j))
        ∧ (∀ e ∈ c.events, isLockOp e = false)
        ∧ (∀ q a r, Event.ExecContext q a r ∈ c.events →
            q = ⟨d.fullTableName, Join c.valuePlaceholders ", ".toList⟩ ∧ a = c.args)) := by
  rcases flush_spec exec d with ⟨h, hf⟩ | ⟨h, chunks, hl, hf⟩
  · refine ⟨_, _, _, hf, by simp [h], ?_, ?_⟩
    · rw [h, blocks_nil]; rfl
    · intro k c hk; simp at hk
  · have h0 : d.metricBuffer.length ≠ 0 := fun e => h (List.length_eq_zero.1 e)
    refine ⟨_, _, _, hf, by simp [h0], ?_, ?_⟩
    · have := flushLoop_stmts exec d.fullTableName d.metricBuffer _ _ _ _ hl
      simpa using this
    · intro k c hk
      have := flushLoop_events exec d.fullTableName d.metricBuffer _ _ _ _ hl k c hk
      simpa using this

theorem chunks_args_eq {α : Type} (chunks : List (ChunkRun α)) (bs : List (List (GoString × α)))
    (h : chunks.map (fun c => (c.valuePlaceholders, c.args)) =
      bs.map (fun b => ((buildChunk b).valuePlaceholders, (buildChunk b).args))) :
    chunks.map (fun c => c.args) = bs.map (fun b => b.flatMap decodeRow)
    ∧ chunks.map (fun c => c.valuePlaceholders.length) =
        bs.map (fun b => (b.filter validKey).length) := by
  have h1 := congrArg (List.map Prod.snd) h
  have h2 := congrArg (List.map (fun p => p.1.length)) h
  simp only [List.map_map, Function.comp_def, buildChunk_args, buildChunk_placeholders,
    List.length_replicate] at h1 h2
  exact ⟨h1, h2⟩

theorem map_getElem_some {β γ δ : Type} (f : β → γ) (g : δ → γ) (l : List β) (m : List δ)
    (h : l.map f = m.map g) (k : Nat) (c : β) (hk : l[k]? = some c) :
    ∃ b, m[k]? = some b ∧ f c = g b := by
  have := congrArg (fun x => x[k]?) h
  simp only [List.getElem?_map, hk, Option.map_some'] at this
  cases hm : m[k]? with
  | none => rw [hm] at this; simp at this
  | some b => rw [hm] at this; simp at this; exact ⟨b, rfl, this⟩

/-- Each statement of a flush is built from one block of the drained list. -/
theorem flush_chunk_block {α : Type} (d : databricksExporter α) (chunks : List (ChunkRun α))
    (hst : chunks.map (fun c => (c.valuePlaceholders, c.args)) =
      (blocks MAX_CHUNK_SIZE d.metricBuffer).map
        (fun b => ((buildChunk b).valuePlaceholders, (buildChunk b).args)))
    (k : Nat) (c : ChunkRun α) (hk : chunks[k]? = some c) :
    ∃ b, (blocks MAX_CHUNK_SIZE d.metricBuffer)[k]? = some b
      ∧ c.valuePlaceholders.length = (b.filter validKey).length
      ∧ c.args = b.flatMap decodeRow
      ∧ (∀ e ∈ b, e ∈ d.metricBuffer) := by
  obtain ⟨b, hb, he⟩ := map_getElem_some _ _ _ _ hst k c hk
  simp only [Prod.mk.injEq] at he
  refine ⟨b, hb, ?_, ?_, ?_⟩
  · rw [he.1, buildChunk_placeholders, List.length_replicate]
  · rw [he.2, buildChunk_args]
  · obtain ⟨-, rfl⟩ := blocks_getElem _ k b hb
    intro e he
    exact List.mem_of_mem_drop (List.mem_of_mem_take he)

theorem execCount_flatMap_ones {α : Type} (chunks : List (ChunkRun α))
    (h : ∀ c ∈ chunks, execCount c.events = 1) :
    execCount (chunks.flatMap (fun c => c.events)) = chunks.length := by
  induction chunks with
  | nil => rfl
  | cons c t ih =>
    simp only [List.flatMap_cons, execCount_append, List.length_cons]
    rw [h c (by simp), ih (fun x hx => h x (by simp [hx]))]
    omega

/-! ## attemptsFor -/

theorem attemptsFor_le (r : Nat → Bool) : attemptsFor r ≤ DB_WRITE_RETRIES := by
  unfold attemptsFor DB_WRITE_RETRIES; split <;> [omega; (split <;> omega)]

theorem attemptsFor_first_success (r : Nat → Bool) (s : Nat) (hs : r s = true)
    (hb : ∀ j, j < s → r j = false) : attemptsFor r = min DB_WRITE_RETRIES (s + 1) := by
  unfold attemptsFor DB_WRITE_RETRIES
  match s, hs, hb with
  | 0, hs, _ => simp [hs]
  | 1, hs, hb => simp [hs, hb 0 (by omega)]
  | s + 2, _, hb =>
    simp [hb 0 (by omega), hb 1 (by omega)]

theorem attemptsFor_all_fail (r : Nat → Bool) (h : ∀ j, j < DB_WRITE_RETRIES → r j = false) :
    attemptsFor r = DB_WRITE_RETRIES := by
  unfold attemptsFor
  simp [h 0 (by decide), h 1 (by decide), DB_WRITE_RETRIES]

theorem attemptsFor_before_last (r : Nat → Bool) (j : Nat) (h : j + 1 < attemptsFor r) :
    r j = false := by
  unfold attemptsFor at h
  cases h0 : r 0 <;> cases h1 : r 1 <;> simp [h0, h1] at h
  all_goals
    first
    | omega
    | (match j, h with
       | 0, _ => exact h0
       | 1, _ => exact h1)
    | (match j, h with
       | 0, _ => exact h0)

/-! ## lock discipline -/

theorem storeCallsUnderLock_held {α : Type} (body : List (Event α))
    (h : ∀ e ∈ body, isLockOp e = false) :
    storeCallsUnderLock true (body ++ [Event.Unlock]) = true := by
  induction body with
  | nil => rfl
  | cons e t ih =>
    have ht := ih (fun x hx => h x (by simp [hx]))
    have he := h e (by simp)
    cases e <;> simp_all [storeCallsUnderLock, isLockOp]

theorem noStoreCallUnderLock_held {α : Type} (body : List (Event α)) (rest : List (Event α))
    (hs : ∃ e ∈ body, isStoreCall e = true)
    (h : ∀ e ∈ body, isLockOp e = false) :
    noStoreCallUnderLock true (body ++ rest) = false := by
  induction body with
  | nil => simp at hs
  | cons e t ih =>
    have he := h e (by simp)
    by_cases hes : isStoreCall e = true
    · cases e <;> simp_all [noStoreCallUnderLock, isLockOp, isStoreCall]
    · have hs2 : ∃ x ∈ t, isStoreCall x = true := by
        obtain ⟨x, hx, hxs⟩ := hs
        rcases List.mem_cons.1 hx with rfl | hx
        · exact absurd hxs hes
        · exact ⟨x, hx, hxs⟩
      have ht := ih hs2 (fun x hx => h x (by simp [hx]))
      cases e <;> simp_all [noStoreCallUnderLock, isLockOp, isStoreCall]

theorem execCount_pos_mem {α : Type} (l : List (Event α)) (h : 1 ≤ execCount l) :
    ∃ e ∈ l, isStoreCall e = true := by
  induction l with
  | nil => simp [execCount] at h
  | cons e t ih =>
    cases e with
    | ExecContext q a r => exact ⟨Event.ExecContext q a r, by simp, rfl⟩
    | Lock | Unlock | AfterFunc _ | Sleep _ | Log _ _ =>
      simp only [execCount] at h
      obtain ⟨x, hx, hxs⟩ := ih h
      exact ⟨x, by simp [hx], hxs⟩

/-! ## map[string]float64 -/

theorem mapGet_mapSet {α : Type} (m : GoMap α) (k k2 : GoString) (v : α) :
    mapGet (mapSet m k v) k2 = if k = k2 then some v else mapGet m k2 := by
  induction m with
  | nil => simp [mapSet, mapGet]
  | cons p rest ih =>
    obtain ⟨k0, v0⟩ := p
    simp only [mapSet]
    by_cases h0 : k0 = k
    · subst h0
      simp only [if_true, mapGet]
      by_cases h1 : k0 = k2 <;> simp [h1]
    · simp only [if_neg h0, mapGet, ih]
      by_cases h1 : k0 = k2
      · subst h1
        simp [Ne.symm h0]
      · simp [h1]

theorem mapSet_keys {α : Type} (m : GoMap α) (k : GoString) (v : α) :
    (mapSet m k v).map Prod.fst =
      if k ∈ m.map Prod.fst then m.map Prod.fst else m.map Prod.fst ++ [k] := by
  induction m with
  | nil => simp [mapSet]
  | cons p rest ih =>
    obtain ⟨k0, v0⟩ := p
    simp only [mapSet]
    by_cases h0 : k0 = k
    · subst h0
      simp only [if_true, List.map_cons, List.mem_cons, true_or]
    · simp only [if_neg h0, List.map_cons, ih, List.mem_cons, Ne.symm h0, false_or]
      split <;> rfl

theorem mapSet_nodup {α : Type} (m : GoMap α) (k : GoString) (v : α)
    (h : (m.map Prod.fst).Nodup) : ((mapSet m k v).map Prod.fst).Nodup := by
  rw [mapSet_keys]
  split
  · exact h
  · next hk =>
    rw [List.nodup_append]
    refine ⟨h, by simp, ?_⟩
    intro a ha hb
    simp at hb
    subst hb
    exact absurd ha hk

theorem mapGet_none_of_not_mem {α : Type} (m : GoMap α) (k : GoString)
    (h : k ∉ m.map Prod.fst) : mapGet m k = none := by
  induction m with
  | nil => rfl
  | cons p rest ih =>
    obtain ⟨k0, v0⟩ := p
    simp only [List.map_cons, List.mem_cons, not_or] at h
    simp [mapGet, Ne.symm h.1, ih h.2]

theorem pushSample_nodup {α : Type} [LinearOrder α] (m : GoMap α) (kv : GoString × α)
    (h : (m.map Prod.fst).Nodup) : ((pushSample m kv).map Prod.fst).Nodup := by
  unfold pushSample
  split
  · split
    · exact mapSet_nodup _ _ _ h
    · exact h
  · exact mapSet_nodup _ _ _ h

theorem foldl_pushSample_nodup {α : Type} [LinearOrder α] (l : List (GoString × α))
    (m : GoMap α) (h : (m.map Prod.fst).Nodup) :
    ((l.foldl pushSample m).map Prod.fst).Nodup := by
  induction l generalizing m with
  | nil => exact h
  | cons kv t ih => exact ih _ (pushSample_nodup m kv h)

/-- The merge loop of pushMetrics: keys of tempBuffer overwrite, other keys stay. -/
theorem mapGet_merge {α : Type} (tb : GoMap α) (h : (tb.map Prod.fst).Nodup) :
    ∀ (mb : GoMap α) (k : GoString),
      mapGet (tb.foldl (fun mb (kv : GoString × α) => mapSet mb kv.1 kv.2) mb) k =
        match mapGet tb k with
        | some v => some v
        | none => mapGet mb k := by
  induction tb with
  | nil => intro mb k; rfl
  | cons p rest ih =>
    obtain ⟨k0, v0⟩ := p
    intro mb k
    simp only [List.map_cons, List.nodup_cons] at h
    simp only [List.foldl_cons, ih h.2, mapGet, mapGet_mapSet]
    by_cases hk : k0 = k
    · subst hk
      simp [mapGet_none_of_not_mem rest k0 h.1]
    · simp [hk]

/-! ## the loops of pushMetrics as a fold of pushSample over the delivered samples -/

theorem pushDataPoint_tempBuffer {α : Type} [LinearOrder α] (float64 : Int → α)
    (name host ep : GoString) (st : PushState α) (dp : NumberDataPoint α) :
    (pushDataPoint float64 name host ep st dp).tempBuffer =
      pushSample st.tempBuffer (Sprintf name host ep, getValueFromDataPoint float64 dp) := by
  unfold pushDataPoint pushSample
  simp only
  split
  · split <;> rfl
  · rfl

theorem foldl_pushDataPoint_tempBuffer {α : Type} [LinearOrder α] (float64 : Int → α)
    (name host ep : GoString) (dps : List (NumberDataPoint α)) (st : PushState α) :
    (dps.foldl (pushDataPoint float64 name host ep) st).tempBuffer =
      (dps.map (fun dp => (Sprintf name host ep, getValueFromDataPoint float64 dp))).foldl
        pushSample st.tempBuffer := by
  induction dps generalizing st with
  | nil => rfl
  | cons dp t ih => simp only [List.foldl_cons, List.map_cons, ih, pushDataPoint_tempBuffer]

theorem pushMetric_tempBuffer {α : Type} [LinearOrder α] (float64 : Int → α)
    (host ep : GoString) (st : PushState α) (m : Metric α) :
    (pushMetric float64 host ep st m).tempBuffer =
      (samplesOfMetric float64 host ep m).foldl pushSample st.tempBuffer := by
  unfold pushMetric samplesOfMetric
  split <;> simp [foldl_pushDataPoint_tempBuffer]

theorem foldl_pushMetric_tempBuffer {α : Type} [LinearOrder α] (float64 : Int → α)
    (host ep : GoString) (ms : List (Metric α)) (st : PushState α) :
    (ms.foldl (pushMetric float64 host ep) st).tempBuffer =
      (ms.flatMap (samplesOfMetric float64 host ep)).foldl pushSample st.tempBuffer := by
  induction ms generalizing st with
  | nil => rfl
  | cons m t ih =>
    simp only [List.foldl_cons, List.flatMap_cons, List.foldl_append, ih, pushMetric_tempBuffer]

theorem foldl_scope_tempBuffer {α : Type} [LinearOrder α] (float64 : Int → α)
    (host ep : GoString) (sms : List (ScopeMetrics α)) (st : PushState α) :
    (sms.foldl (fun st sm => sm.Metrics.foldl (pushMetric float64 host ep) st) st).tempBuffer =
      (sms.flatMap (fun sm => sm.Metrics.flatMap (samplesOfMetric float64 host ep))).foldl
        pushSample st.tempBuffer := by
  induction sms generalizing st with
  | nil => rfl
  | cons m t ih =>
    simp only [List.foldl_cons, List.flatMap_cons, List.foldl_append, ih,
      foldl_pushMetric_tempBuffer]

theorem foldl_pushResource_tempBuffer {α : Type} [LinearOrder α] (float64 : Int → α)
    (metrics : List (ResourceMetrics α)) (st : PushState α) :
    (metrics.foldl (pushResource float64) st).tempBuffer =
      (samples float64 metrics).foldl pushSample st.tempBuffer := by
  induction metrics generalizing st with
  | nil => rfl
  | cons m t ih =>
    simp only [List.foldl_cons, samples, List.flatMap_cons, List.foldl_append, ih]
    simp only [pushResource, foldl_scope_tempBuffer, samples]

/-! ## what a fold of pushSample stores for one key -/

theorem mapGet_pushSample {α : Type} [LinearOrder α] (m : GoMap α) (kv : GoString × α)
    (k : GoString) :
    mapGet (pushSample m kv) k =
      if kv.1 = k then
        (match mapGet m k with
         | some curr => some (max curr kv.2)
         | none => some kv.2)
      else mapGet m k := by
  unfold pushSample
  by_cases hk : kv.1 = k
  · subst hk
    simp only [if_true]
    cases hg : mapGet m kv.1 with
    | none => simp [mapGet_mapSet]
    | some curr =>
      simp only
      by_cases hgt : kv.2 > curr
      · simp [hgt, mapGet_mapSet, max_eq_right (le_of_lt hgt)]
      · simp [hgt, hg, max_eq_left (not_lt.1 hgt)]
  · simp only [if_neg hk]
    split
    · split
      · simp [mapGet_mapSet, hk]
      · rfl
    · simp [mapGet_mapSet, hk]

theorem mapGet_foldl_pushSample {α : Type} [LinearOrder α] (l : List (GoString × α))
    (k : GoString) :
    ∀ (m : GoMap α),
      mapGet (l.foldl pushSample m) k =
        match mapGet m k, valuesFor k l with
        | g, [] => g
        | some curr, v :: vs => some ((v :: vs).foldl max curr)
        | none, v :: vs => some (vs.foldl max v) := by
  induction l with
  | nil => intro m; simp [valuesFor]
  | cons kv t ih =>
    intro m
    simp only [List.foldl_cons, ih, mapGet_pushSample]
    by_cases hk : kv.1 = k
    · have hv : valuesFor k (kv :: t) = kv.2 :: valuesFor k t := by
        simp [valuesFor, List.filter_cons, hk]
      rw [hv]
      simp only [if_pos hk]
      cases hg : mapGet m k <;> cases hvt : valuesFor k t <;> simp
    · have hv : valuesFor k (kv :: t) = valuesFor k t := by
        simp [valuesFor, List.filter_cons, hk]
      rw [hv]
      simp only [if_neg hk]

theorem foldl_max_ge {α : Type} [LinearOrder α] (vs : List α) (v : α) :
    v ≤ vs.foldl max v ∧ ∀ x ∈ vs, x ≤ vs.foldl max v := by
  induction vs generalizing v with
  | nil => simp
  | cons a t ih =>
    simp only [List.foldl_cons, List.mem_cons]
    obtain ⟨h1, h2⟩ := ih (max v a)
    refine ⟨le_trans (le_max_left v a) h1, ?_⟩
    rintro x (rfl | hx)
    · exact le_trans (le_max_right v x) h1
    · exact h2 x hx

theorem foldl_max_mem {α : Type} [LinearOrder α] (vs : List α) (v : α) :
    vs.foldl max v ∈ v :: vs := by
  induction vs generalizing v with
  | nil => simp
  | cons a t ih =>
    simp only [List.foldl_cons]
    have := ih (max v a)
    rcases List.mem_cons.1 this with h | h
    · rw [h]
      rcases max_choice v a with hc | hc <;> simp [hc]
    · simp [h]

/-- What pushMetrics leaves in metricBuffer for a key. -/
theorem pushMetrics_mapGet {α : Type} [LinearOrder α] (float64 : Int → α)
    (d : databricksExporter α) (metrics : List (ResourceMetrics α)) (key : GoString) :
    mapGet (pushMetrics float64 d metrics).1.metricBuffer key =
      match valuesFor key (samples float64 metrics) with
      | [] => mapGet d.metricBuffer key
      | v :: vs => some (vs.foldl max v) := by
  have hbuf : (pushMetrics float64 d metrics).1.metricBuffer =
      ((samples float64 metrics).foldl pushSample []).foldl
        (fun mb (kv : GoString × α) => mapSet mb kv.1 kv.2) d.metricBuffer := by
    unfold pushMetrics
    simp only [foldl_pushResource_tempBuffer]
    cases d.flushTimer <;> rfl
  rw [hbuf, mapGet_merge _ (foldl_pushSample_nodup _ _ (by simp)), mapGet_foldl_pushSample]
  simp only [mapGet]
  cases valuesFor key (samples float64 metrics) <;> rfl

/-! ## keys with a separator in a field -/

theorem Split_length (s : GoString) : (Split s).length = s.count SEP + 1 := by
  induction s with
  | nil => rfl
  | cons c cs ih =>
    simp only [Split]
    by_cases hc : c = SEP
    · subst hc; simp [ih]
    · rw [if_neg hc, List.count_cons_of_ne (Ne.symm hc), ← ih]
      cases hs : Split cs with
      | nil => exact absurd hs (Split_ne_nil cs)
      | cons p ps => simp

theorem Split_Sprintf_length_of_sep (name host ep : GoString)
    (h : SEP ∈ name ∨ SEP ∈ host ∨ SEP ∈ ep) : (Split (Sprintf name host ep)).length ≠ 3 := by
  rw [Split_length]
  unfold Sprintf
  simp only [List.count_append, List.count_cons_self]
  have h1 := @List.count_pos_iff _ _ _ SEP name
  have h2 := @List.count_pos_iff _ _ _ SEP host
  have h3 := @List.count_pos_iff _ _ _ SEP ep
  rcases h with h | h | h
  · have := h1.2 h; omega
  · have := h2.2 h; omega
  · have := h3.2 h; omega

theorem addEntry_invalid {α : Type} (st : ChunkState α) (e : GoString × α)
    (h : (Split e.1).length ≠ 3) :
    addEntry st e =
      { st with log := st.log ++ [Event.Log Level.Warn "Invalid composite key format"] } := by
  unfold addEntry
  split
  · next a b c hs => rw [hs] at h; simp at h
  · rfl

theorem mem_samples {α : Type} (float64 : Int → α) (metrics : List (ResourceMetrics α))
    (rm : ResourceMetrics α) (sm : ScopeMetrics α) (m : Metric α)
    (dps : List (NumberDataPoint α)) (dp : NumberDataPoint α)
    (hrm : rm ∈ metrics) (hsm : sm ∈ rm.scopeMetrics) (hm : m ∈ sm.Metrics)
    (hd : m.data = MetricData.Gauge dps ∨ m.data = MetricData.Sum dps) (hdp : dp ∈ dps) :
    getValueFromDataPoint float64 dp ∈
      valuesFor (Sprintf m.Name (hostOf rm.Attributes) (servingEndpointOf rm.Attributes))
        (samples float64 metrics) := by
  unfold valuesFor samples
  simp only [List.mem_map, List.mem_filter, List.mem_flatMap, decide_eq_true_eq]
  refine ⟨(Sprintf m.Name (hostOf rm.Attributes) (servingEndpointOf rm.Attributes),
    getValueFromDataPoint float64 dp), ⟨⟨rm, hrm, sm, hsm, m, hm, ?_⟩, rfl⟩, rfl⟩
  unfold samplesOfMetric
  rcases hd with hd | hd <;> rw [hd] <;> exact List.mem_map.2 ⟨dp, hdp, rfl⟩

/-! # The claims -/

/-- C1, counterexample. Two pushMetrics calls with no flush in between deliver
10 and then 5 for the key "m|h|": after the first call the buffer holds 10,
after the second it holds 5, not the maximum 10 of the delivered values; the
later, lower sample has replaced the stored value. -/
theorem pushMetrics_max_across_calls_counterexample :
    valuesFor "m|h|".toList (samples id
        [(⟨[("server.address".toList, "h".toList)],
           [⟨[⟨"m".toList, MetricData.Gauge [NumberDataPoint.Double (10 : Int)]⟩]⟩]⟩ :
          ResourceMetrics Int)]) = [10]
    ∧ valuesFor "m|h|".toList (samples id
        [(⟨[("server.address".toList, "h".toList)],
           [⟨[⟨"m".toList, MetricData.Gauge [NumberDataPoint.Double (5 : Int)]⟩]⟩]⟩ :
          ResourceMetrics Int)]) = [5]
    ∧ mapGet (pushMetrics id (newDatabricksExporter "t".toList)
        [(⟨[("server.address".toList, "h".toList)],
           [⟨[⟨"m".toList, MetricData.Gauge [NumberDataPoint.Double (10 : Int)]⟩]⟩]⟩ :
          ResourceMetrics Int)]).1.metricBuffer "m|h|".toList = some 10
    ∧ mapGet (pushMetrics id
        (pushMetrics id (newDatabricksExporter "t".toList)
          [(⟨[("server.address".toList, "h".toList)],
             [⟨[⟨"m".toList, MetricData.Gauge [NumberDataPoint.Double (10 : Int)]⟩]⟩]⟩ :
            ResourceMetrics Int)]).1
        [(⟨[("server.address".toList, "h".toList)],
           [⟨[⟨"m".toList, MetricData.Gauge [NumberDataPoint.Double (5 : Int)]⟩]⟩]⟩ :
          ResourceMetrics Int)]).1.metricBuffer "m|h|".toList = some 5 := by
  decide

/-- C1, amended. Within one pushMetrics call the maximum is kept: for every key,
when the call delivers no sample for the key the buffered value is unchanged,
and when it delivers at least one the value held in metricBuffer after the
call is the maximum of the values delivered for that key in this call, whatever
was stored before (metricBuffer is overwritten from the per-call tempBuffer). -/
theorem pushMetrics_keeps_call_maximum {α : Type} [LinearOrder α] (float64 : Int → α)
    (d : databricksExporter α) (metrics : List (ResourceMetrics α)) (key : GoString) :
    (valuesFor key (samples float64 metrics) = [] →
      mapGet (pushMetrics float64 d metrics).1.metricBuffer key = mapGet d.metricBuffer key)
    ∧ (valuesFor key (samples float64 metrics) ≠ [] →
      ∃ m, mapGet (pushMetrics float64 d metrics).1.metricBuffer key = some m
        ∧ m ∈ valuesFor key (samples float64 metrics)
        ∧ ∀ v ∈ valuesFor key (samples float64 metrics), v ≤ m) := by
  have h := pushMetrics_mapGet float64 d metrics key
  constructor
  · intro he
    rw [h, he]
  · intro hne
    cases hv : valuesFor key (samples float64 metrics) with
    | nil => exact absurd hv hne
    | cons v vs =>
      rw [hv] at h
      refine ⟨_, h, foldl_max_mem vs v, ?_⟩
      intro x hx
      rcases List.mem_cons.1 hx with rfl | hx
      · exact (foldl_max_ge vs x).1
      · exact (foldl_max_ge vs v).2 x hx

/-- C1, amended, at a concrete call delivering 3, 10, 5 for one key. -/
theorem pushMetrics_keeps_call_maximum_witness :
    valuesFor "m|h|".toList (samples id
        [(⟨[("server.address".toList, "h".toList)],
           [⟨[⟨"m".toList, MetricData.Gauge
              [NumberDataPoint.Double (3 : Int), NumberDataPoint.Double 10,
               NumberDataPoint.Double 5]⟩]⟩]⟩ : ResourceMetrics Int)]) ≠ []
    ∧ ∃ m, mapGet (pushMetrics id (newDatabricksExporter "t".toList)
        [(⟨[("server.address".toList, "h".toList)],
           [⟨[⟨"m".toList, MetricData.Gauge
              [NumberDataPoint.Double (3 : Int), NumberDataPoint.Double 10,
               NumberDataPoint.Double 5]⟩]⟩]⟩ : ResourceMetrics Int)]).1.metricBuffer
          "m|h|".toList = some m
      ∧ m ∈ valuesFor "m|h|".toList (samples id
        [(⟨[("server.address".toList, "h".toList)],
           [⟨[⟨"m".toList, MetricData.Gauge
              [NumberDataPoint.Double (3 : Int), NumberDataPoint.Double 10,
               NumberDataPoint.Double 5]⟩]⟩]⟩ : ResourceMetrics Int)])
      ∧ ∀ v ∈ valuesFor "m|h|".toList (samples id
        [(⟨[("server.address".toList, "h".toList)],
           [⟨[⟨"m".toList, MetricData.Gauge
              [NumberDataPoint.Double (3 : Int), NumberDataPoint.Double 10,
               NumberDataPoint.Double 5]⟩]⟩]⟩ : ResourceMetrics Int)]), v ≤ m :=
  ⟨by decide,
   (pushMetrics_keeps_call_maximum id (newDatabricksExporter "t".toList) _ "m|h|".toList).2
     (by decide)⟩

/-- C2, the failing input. An empty batch arms the timer on a new exporter and
leaves metricBuffer empty; flush then takes its early return and the exporter
is unchanged, flushTimer still non-nil; the next pushMetrics stores its sample
but creates no timer (its events are Lock, Unlock), whereas on an exporter with
flushTimer nil the same call does create one. -/
theorem flush_empty_buffer_keeps_timer :
    ((pushMetrics id (newDatabricksExporter "t".toList : databricksExporter Int) []).1 =
        ⟨[], 60, some ⟨60⟩, "t".toList⟩)
    ∧ flush (fun _ => true) (⟨[], 60, some ⟨60⟩, "t".toList⟩ : databricksExporter Int) =
        some (⟨[], 60, some ⟨60⟩, "t".toList⟩, [],
          [Event.Lock, Event.Log Level.Info "No metrics to flush.", Event.Unlock])
    ∧ pushMetrics id (⟨[], 60, some ⟨60⟩, "t".toList⟩ : databricksExporter Int)
        [(⟨[("server.address".toList, "h".toList)],
           [⟨[⟨"m".toList, MetricData.Gauge [NumberDataPoint.Double (1 : Int)]⟩]⟩]⟩ :
          ResourceMetrics Int)] =
        (⟨[("m|h|".toList, 1)], 60, some ⟨60⟩, "t".toList⟩, [Event.Lock, Event.Unlock])
    ∧ pushMetrics id (newDatabricksExporter "t".toList : databricksExporter Int)
        [(⟨[("server.address".toList, "h".toList)],
           [⟨[⟨"m".toList, MetricData.Gauge [NumberDataPoint.Double (1 : Int)]⟩]⟩]⟩ :
          ResourceMetrics Int)] =
        (⟨[("m|h|".toList, 1)], 60, some ⟨60⟩, "t".toList⟩,
          [Event.Lock, Event.AfterFunc 60, Event.Unlock]) := by
  decide

/-- C3, counterexample. The trace of flush on a one-entry buffer is Lock,
ExecContext, log line, Unlock: the store call lies between the Lock and its
matching Unlock. -/
theorem flush_lock_released_before_store_counterexample :
    (flush (fun _ => true)
        (⟨[("m|h|e".toList, (1 : Int))], 60, some ⟨60⟩, "t".toList⟩ :
          databricksExporter Int)).map (fun r => r.2.2) =
      some [Event.Lock,
        Event.ExecContext ⟨"t".toList, "(?, ?, ?, ?)".toList⟩
          [Arg.str "m".toList, Arg.str "h".toList, Arg.str "e".toList, Arg.num 1] true,
        Event.Log Level.Info "Successfully flushed metrics chunk",
        Event.Unlock]
    ∧ (flush (fun _ => true)
        (⟨[("m|h|e".toList, (1 : Int))], 60, some ⟨60⟩, "t".toList⟩ :
          databricksExporter Int)).map (fun r => noStoreCallUnderLock false r.2.2) =
      some false := by
  decide

/-- C3, amended. flush holds the buffer lock from entry to return: its trace is
Lock, then a body without any lock operation, then Unlock, so every
ExecContext call and every back-off sleep happens while the lock is held; and
whenever the buffer is not empty some store call lies between the Lock and the
Unlock. -/
theorem flush_holds_lock_throughout {α : Type} (exec : Nat → Bool)
    (d : databricksExporter α) :
    ∃ d1 chunks body, flush exec d = some (d1, chunks, Event.Lock :: (body ++ [Event.Unlock]))
      ∧ (∀ e ∈ body, isLockOp e = false)
      ∧ storeCallsUnderLock false (Event.Lock :: (body ++ [Event.Unlock])) = true
      ∧ (d.metricBuffer ≠ [] →
          noStoreCallUnderLock false (Event.Lock :: (body ++ [Event.Unlock])) = false) := by
  obtain ⟨d1, chunks, tr, hf, htr, hst, hev⟩ := flush_stmts exec d
  have hbody : ∀ e ∈ (if d.metricBuffer.length = 0
      then [Event.Log Level.Info "No metrics to flush."]
      else chunks.flatMap (fun c => c.events)), isLockOp e = false := by
    intro e he
    split at he
    · simp at he; subst he; rfl
    · obtain ⟨c, hc, hec⟩ := List.mem_flatMap.1 he
      obtain ⟨k, hk⟩ := List.mem_iff_getElem?.1 hc
      exact (hev k c hk).2.2.1 e hec
  refine ⟨d1, chunks, _, by rw [hf, htr]; rfl, hbody, ?_, ?_⟩
  · simp only [storeCallsUnderLock]
    exact storeCallsUnderLock_held _ hbody
  · intro hne
    simp only [noStoreCallUnderLock]
    refine noStoreCallUnderLock_held _ _ ?_ hbody
    have h0 : d.metricBuffer.length ≠ 0 := fun e => hne (List.length_eq_zero.1 e)
    rw [if_neg h0]
    have hlen : chunks.length = (blocks MAX_CHUNK_SIZE d.metricBuffer).length := by
      have := congrArg List.length hst
      simpa using this
    have hpos : 0 < chunks.length := by
      rw [hlen, blocks_length]
      simp only [MAX_CHUNK_SIZE]
      omega
    have hk : chunks[0]? = some (chunks.get ⟨0, hpos⟩) := by
      simp [List.getElem?_eq_getElem hpos]
    have hc := (hev 0 _ hk).1
    obtain ⟨e, he, hes⟩ := execCount_pos_mem (chunks.get ⟨0, hpos⟩).events
      (by rw [hc]; exact attemptsFor_pos _)
    exact ⟨e, List.mem_flatMap.2 ⟨_, List.get_mem _ _ _, he⟩, hes⟩

/-- C3, amended, at a one-entry buffer whose store calls all fail. -/
theorem flush_holds_lock_throughout_witness :
    ([("m|h|e".toList, (1 : Int))] : GoMap Int) ≠ []
    ∧ ∃ d1 chunks body,
        flush (fun _ => false)
          (⟨[("m|h|e".toList, (1 : Int))], 60, some ⟨60⟩, "t".toList⟩ :
            databricksExporter Int) = some (d1, chunks, Event.Lock :: (body ++ [Event.Unlock]))
        ∧ noStoreCallUnderLock false (Event.Lock :: (body ++ [Event.Unlock])) = false := by
  refine ⟨by decide, ?_⟩
  obtain ⟨d1, chunks, body, hf, -, -, hno⟩ := flush_holds_lock_throughout (fun _ => false)
    (⟨[("m|h|e".toList, (1 : Int))], 60, some ⟨60⟩, "t".toList⟩ : databricksExporter Int)
  exact ⟨d1, chunks, body, hf, hno (by decide)⟩

/-- C4, counterexample. A gauge named "a|b" on host "h" is not rejected:
pushMetrics stores it under the key "a|b|h|". -/
theorem pushMetrics_rejects_separator_counterexample :
    SEP ∈ "a|b".toList
    ∧ (pushMetrics id (newDatabricksExporter "t".toList)
        [(⟨[("server.address".toList, "h".toList)],
           [⟨[⟨"a|b".toList, MetricData.Gauge [NumberDataPoint.Double (1 : Int)]⟩]⟩]⟩ :
          ResourceMetrics Int)]).1.metricBuffer = [("a|b|h|".toList, 1)] := by
  decide

/-- C4, amended. For sample values from a totally ordered domain (no NaN),
pushMetrics checks no field for the separator: every gauge or sum data point of
the batch, whatever its metric name, host and serving endpoint, leaves an entry
under the key name|host|endpoint whose value is at least the value of the data
point; when one of the three fields contains the separator the key does not
split into three parts, and the entry loop of flush skips such an entry with a
warning. -/
theorem pushMetrics_stores_any_identity {α : Type} [LinearOrder α] (float64 : Int → α)
    (d : databricksExporter α) (metrics : List (ResourceMetrics α))
    (rm : ResourceMetrics α) (sm : ScopeMetrics α) (m : Metric α)
    (dps : List (NumberDataPoint α)) (dp : NumberDataPoint α)
    (hrm : rm ∈ metrics) (hsm : sm ∈ rm.scopeMetrics) (hm : m ∈ sm.Metrics)
    (hd : m.data = MetricData.Gauge dps ∨ m.data = MetricData.Sum dps) (hdp : dp ∈ dps) :
    (∃ v, mapGet (pushMetrics float64 d metrics).1.metricBuffer
          (Sprintf m.Name (hostOf rm.Attributes) (servingEndpointOf rm.Attributes)) = some v
        ∧ getValueFromDataPoint float64 dp ≤ v)
    ∧ ((SEP ∈ m.Name ∨ SEP ∈ hostOf rm.Attributes ∨ SEP ∈ servingEndpointOf rm.Attributes) →
        ∀ (st : ChunkState α) (v : α),
          addEntry st
            (Sprintf m.Name (hostOf rm.Attributes) (servingEndpointOf rm.Attributes), v) =
          { st with log := st.log ++ [Event.Log Level.Warn "Invalid composite key format"] }) := by
  constructor
  · have hmem := mem_samples float64 metrics rm sm m dps dp hrm hsm hm hd hdp
    have h := pushMetrics_mapGet float64 d metrics
      (Sprintf m.Name (hostOf rm.Attributes) (servingEndpointOf rm.Attributes))
    cases hv : valuesFor
        (Sprintf m.Name (hostOf rm.Attributes) (servingEndpointOf rm.Attributes))
        (samples float64 metrics) with
    | nil => rw [hv] at hmem; simp at hmem
    | cons v vs =>
      rw [hv] at h hmem
      refine ⟨_, h, ?_⟩
      rcases List.mem_cons.1 hmem with hx | hx
      · rw [hx]; exact (foldl_max_ge vs v).1
      · exact (foldl_max_ge vs v).2 _ hx
  · intro hsep st v
    exact addEntry_invalid st _ (Split_Sprintf_length_of_sep _ _ _ hsep)

/-- C4, amended, at a gauge named "a|b" on host "h" with value 1. -/
theorem pushMetrics_stores_any_identity_witness :
    ∃ v, mapGet (pushMetrics id (newDatabricksExporter "t".toList)
        [(⟨[("server.address".toList, "h".toList)],
           [⟨[⟨"a|b".toList, MetricData.Gauge [NumberDataPoint.Double (1 : Int)]⟩]⟩]⟩ :
          ResourceMetrics Int)]).1.metricBuffer "a|b|h|".toList = some v
      ∧ (1 : Int) ≤ v :=
  (pushMetrics_stores_any_identity id (newDatabricksExporter "t".toList)
    [(⟨[("server.address".toList, "h".toList)],
       [⟨[⟨"a|b".toList, MetricData.Gauge [NumberDataPoint.Double (1 : Int)]⟩]⟩]⟩ :
      ResourceMetrics Int)]
    ⟨[("server.address".toList, "h".toList)],
       [⟨[⟨"a|b".toList, MetricData.Gauge [NumberDataPoint.Double (1 : Int)]⟩]⟩]⟩
    ⟨[⟨"a|b".toList, MetricData.Gauge [NumberDataPoint.Double (1 : Int)]⟩]⟩
    ⟨"a|b".toList, MetricData.Gauge [NumberDataPoint.Double (1 : Int)]⟩
    [NumberDataPoint.Double (1 : Int)] (NumberDataPoint.Double 1)
    (by decide) (by decide) (by decide) (Or.inl rfl) (by decide)).1

/-- C5. For every buffer and every pattern of store results flush returns, and
the arguments bound over all statements it builds, in order, are the rows
(part0, part1, part2, value) of exactly the drained entries whose key splits
into three parts, each once and in drained order; an entry whose key does not
split into three parts contributes no argument. Every ExecContext call of a
chunk carries the arguments of that chunk. -/
theorem flush_binds_exactly_valid_entries {α : Type} (exec : Nat → Bool)
    (d : databricksExporter α) :
    ∃ d1 chunks tr, flush exec d = some (d1, chunks, tr)
      ∧ chunks.flatMap (fun c => c.args) = d.metricBuffer.flatMap decodeRow
      ∧ (∀ c ∈ chunks, ∀ q a r, Event.ExecContext q a r ∈ c.events → a = c.args)
      ∧ (∀ e ∈ d.metricBuffer,
          (∀ p0 p1 p2, Split e.1 = [p0, p1, p2] →
            decodeRow e = [Arg.str p0, Arg.str p1, Arg.str p2, Arg.num e.2])
          ∧ ((Split e.1).length ≠ 3 → decodeRow e = [])) := by
  obtain ⟨d1, chunks, tr, hf, -, hst, hev⟩ := flush_stmts exec d
  refine ⟨d1, chunks, tr, hf, ?_, ?_, ?_⟩
  · have h1 := (chunks_args_eq chunks _ hst).1
    rw [List.flatMap_def, h1, ← List.flatMap_def]
    exact blocks_flatMap decodeRow _ _ rfl
  · intro c hc q a r he
    obtain ⟨k, hk⟩ := List.mem_iff_getElem?.1 hc
    exact ((hev k c hk).2.2.2 q a r he).2
  · intro e _
    constructor
    · intro p0 p1 p2 hs
      simp [decodeRow, hs]
    · intro hl
      have := decodeRow_length e
      simp only [validKey, hl, decide_False, Bool.false_eq_true, if_false] at this
      exact List.length_eq_zero.1 this

/-- C6. For every buffer and every pattern of store results flush returns having
run ceil(S / 50) chunk iterations. The store calls of chunk k receive the
results exec off, exec (off + 1), ... where off is the number of calls made by
the chunks before it. Their number is at least 1 and at most
DB_WRITE_RETRIES = 3, every attempt before the last one failed, it is
min(3, s + 1) when the attempt with index s is the first to succeed, and 3 when
the first three all fail. -/
theorem flush_retries_per_chunk {α : Type} (exec : Nat → Bool) (d : databricksExporter α) :
    ∃ d1 chunks tr, flush exec d = some (d1, chunks, tr)
      ∧ chunks.length = (d.metricBuffer.length + MAX_CHUNK_SIZE - 1) / MAX_CHUNK_SIZE
      ∧ ∀ (k : Nat) (c : ChunkRun α), chunks[k]? = some c →
          execResults c.events =
            (List.range (execCount c.events)).map (fun j =>
              exec (execCount ((chunks.take k).flatMap (fun c => c.events)) + j))
          ∧ 1 ≤ execCount c.events
          ∧ execCount c.events ≤ DB_WRITE_RETRIES
          ∧ (∀ j, j + 1 < execCount c.events →
              exec (execCount ((chunks.take k).flatMap (fun c => c.events)) + j) = false)
          ∧ (∀ s, exec (execCount ((chunks.take k).flatMap (fun c => c.events)) + s) = true →
              (∀ j, j < s →
                exec (execCount ((chunks.take k).flatMap (fun c => c.events)) + j) = false) →
              execCount c.events = min DB_WRITE_RETRIES (s + 1))
          ∧ ((∀ j, j < DB_WRITE_RETRIES →
                exec (execCount ((chunks.take k).flatMap (fun c => c.events)) + j) = false) →
              execCount c.events = DB_WRITE_RETRIES) := by
  obtain ⟨d1, chunks, tr, hf, -, hst, hev⟩ := flush_stmts exec d
  have hlen : chunks.length = (d.metricBuffer.length + MAX_CHUNK_SIZE - 1) / MAX_CHUNK_SIZE := by
    have := congrArg List.length hst
    simpa [blocks_length] using this
  refine ⟨d1, chunks, tr, hf, hlen, ?_⟩
  intro k c hk
  obtain ⟨hcnt, hres, -, -⟩ := hev k c hk
  refine ⟨hres, ?_, ?_, ?_, ?_, ?_⟩
  · rw [hcnt]; exact attemptsFor_pos _
  · rw [hcnt]; exact attemptsFor_le _
  · intro j hj
    rw [hcnt] at hj
    exact attemptsFor_before_last _ j hj
  · intro s hs hb
    rw [hcnt]
    exact attemptsFor_first_success _ s hs hb
  · intro hall
    rw [hcnt]
    exact attemptsFor_all_fail _ hall

/-- C7. For every buffer of size S and every pattern of store results flush
returns having built exactly ceil(S / MAX_CHUNK_SIZE) statements (none when
S = 0), each with at most MAX_CHUNK_SIZE placeholder groups and four arguments
per group; when every store call succeeds this is also the number of
ExecContext calls in the trace. -/
theorem flush_statement_count {α : Type} (exec : Nat → Bool) (d : databricksExporter α) :
    ∃ d1 chunks tr, flush exec d = some (d1, chunks, tr)
      ∧ chunks.length = (d.metricBuffer.length + MAX_CHUNK_SIZE - 1) / MAX_CHUNK_SIZE
      ∧ (d.metricBuffer.length = 0 → chunks.length = 0)
      ∧ (∀ c ∈ chunks, c.valuePlaceholders.length ≤ MAX_CHUNK_SIZE
          ∧ c.args.length = 4 * c.valuePlaceholders.length)
      ∧ ((∀ n, exec n = true) →
          execCount tr = (d.metricBuffer.length + MAX_CHUNK_SIZE - 1) / MAX_CHUNK_SIZE) := by
  obtain ⟨d1, chunks, tr, hf, htr, hst, hev⟩ := flush_stmts exec d
  have hlen : chunks.length = (d.metricBuffer.length + MAX_CHUNK_SIZE - 1) / MAX_CHUNK_SIZE := by
    have := congrArg List.length hst
    simpa [blocks_length] using this
  refine ⟨d1, chunks, tr, hf, hlen, ?_, ?_, ?_⟩
  · intro h0
    rw [hlen, h0]
    simp [MAX_CHUNK_SIZE]
  · intro c hc
    obtain ⟨k, hk⟩ := List.mem_iff_getElem?.1 hc
    obtain ⟨b, hb, hrows, hargs, -⟩ := flush_chunk_block d chunks hst k c hk
    have hbl := (blocks_getElem_length _ k b hb).2.1
    have hfl : (b.filter validKey).length ≤ b.length := List.length_filter_le _ _
    refine ⟨by omega, ?_⟩
    rw [hargs, flatMap_decodeRow_length, hrows]
  · intro hall
    rw [htr]
    simp only [execCount_append]
    by_cases h0 : d.metricBuffer.length = 0
    · simp [h0, execCount, MAX_CHUNK_SIZE]
    · rw [if_neg h0, execCount_flatMap_ones, hlen]
      · simp [execCount]
      · intro c hc
        obtain ⟨k, hk⟩ := List.mem_iff_getElem?.1 hc
        rw [(hev k c hk).1]
        simp [attemptsFor, hall]

/-- C7 at a buffer of 51 entries with a store that always succeeds: two
statements, two store calls. -/
theorem flush_statement_count_witness :
    (∀ n, (fun _ : Nat => true) n = true)
    ∧ ∃ d1 chunks tr,
        flush (fun _ => true)
          (⟨endpointEntries 51, 60, some ⟨60⟩, "t".toList⟩ : databricksExporter Int) =
            some (d1, chunks, tr)
        ∧ chunks.length = 2 ∧ execCount tr = 2 := by
  refine ⟨fun _ => rfl, ?_⟩
  obtain ⟨d1, chunks, tr, hf, hlen, -, -, hex⟩ := flush_statement_count (fun _ => true)
    (⟨endpointEntries 51, 60, some ⟨60⟩, "t".toList⟩ : databricksExporter Int)
  exact ⟨d1, chunks, tr, hf, by rw [hlen]; decide, by rw [hex (fun _ => rfl)]; decide⟩

/-- The WHEN MATCHED expression computes mergeRow on a 60-slot array. -/
theorem metric_values_matched_eq {α : Type} (old : List α) (v : α) (m : Nat)
    (h : old.length = 60) :
    metric_values_matched old v (m : Int) = some (mergeRow old v m) := by
  unfold metric_values_matched mergeRow
  by_cases h60 : 60 ≤ m
  · have : (m : Int) ≥ 60 := by omega
    simp [this, h60, array_repeat]
  · have hlt : ¬ ((m : Int) ≥ 60) := by omega
    by_cases h1 : 1 ≤ m
    · have h1i : (m : Int) ≥ 1 := by omega
      have hL : LEAST 60 (m : Int) = (m : Int) := by
        unfold LEAST
        rw [if_neg (by omega)]
      have hC : CAST_INT (m : Int) = some (m : Int) := by
        unfold CAST_INT
        rw [if_pos (by omega)]
      have hS : slice old ((m : Int) + 1) 60 = some (old.drop m) := by
        unfold slice
        rw [if_neg (by omega), if_neg (by omega)]
        simp only
        rw [if_neg (by omega)]
        have e : (m : Int) + 1 - 1 = (m : Int) := by omega
        rw [e, if_neg (by omega)]
        have : (List.drop m old).length ≤ 60 := by simp [h]
        simp [List.take_of_length_le this]
      simp [hlt, h1i, h60, h1, hL, hC, hS, concat, array_repeat]
    · have h0 : ¬ ((m : Int) ≥ 1) := by omega
      simp [hlt, h0, h60, h1]

/-- The result of mergeRow on a 60-slot array has 60 slots. -/
theorem mergeRow_length {α : Type} (old : List α) (v : α) (m : Nat)
    (h : old.length = 60) : (mergeRow old v m).length = 60 := by
  unfold mergeRow
  split
  · simp
  · split
    · simp [h]; omega
    · exact h

/-- C8. On a stored array of length 60, a new value v and m whole minutes since
updated_at, the metric_values expression of WHEN MATCHED evaluates without
error to mergeRow old v m: 60 copies of v when m ≥ 60, old without its first m
elements followed by m copies of v when 1 ≤ m < 60, old when m = 0. The result
has exactly 60 slots, and for 60 fives, the value eight and m = 2 it is 58
fives followed by two eights. -/
theorem merge_matched_refines_mergeRow {α : Type} (old : List α) (v : α) (m : Nat)
    (h : old.length = 60) :
    metric_values_matched old v (m : Int) = some (mergeRow old v m)
    ∧ (mergeRow old v m).length = 60
    ∧ (∀ five eight : α,
        metric_values_matched (List.replicate 60 five) eight 2 =
          some (List.replicate 58 five ++ [eight, eight])) := by
  refine ⟨metric_values_matched_eq old v m h, mergeRow_length old v m h, ?_⟩
  intro five eight
  have := metric_values_matched_eq (List.replicate 60 five) eight 2 (by simp)
  rw [show ((2 : Nat) : Int) = 2 from rfl] at this
  rw [this]
  simp [mergeRow]

/-- C8 at old = 60 fives, v = 8, m = 2. -/
theorem merge_matched_refines_mergeRow_witness :
    (List.replicate 60 (5 : Int)).length = 60
    ∧ metric_values_matched (List.replicate 60 (5 : Int)) 8 ((2 : Nat) : Int) =
        some (mergeRow (List.replicate 60 (5 : Int)) 8 2)
    ∧ mergeRow (List.replicate 60 (5 : Int)) 8 2 = List.replicate 58 5 ++ [8, 8] :=
  ⟨by decide,
   (merge_matched_refines_mergeRow (List.replicate 60 (5 : Int)) 8 2 (by decide)).1,
   by decide⟩

/-- C9. Key codec round trip: when none of name, host, endpoint contains the
separator, splitting the key name|host|endpoint gives exactly these three
parts; the entry loop of flush therefore appends the row of such an entry
instead of skipping it; and two separator-free identities with the same key
are equal. -/
theorem key_codec_round_trip {α : Type} (name host endpoint : GoString)
    (hn : SEP ∉ name) (hh : SEP ∉ host) (he : SEP ∉ endpoint) :
    Split (Sprintf name host endpoint) = [name, host, endpoint]
    ∧ (∀ (st : ChunkState α) (v : α),
        addEntry st (Sprintf name host endpoint, v) =
          { st with
            valuePlaceholders := st.valuePlaceholders ++ ["(?, ?, ?, ?)".toList],
            args := st.args ++ [Arg.str name, Arg.str host, Arg.str endpoint, Arg.num v] })
    ∧ (∀ name2 host2 endpoint2 : GoString,
        SEP ∉ name2 → SEP ∉ host2 → SEP ∉ endpoint2 →
        Sprintf name host endpoint = Sprintf name2 host2 endpoint2 →
        name = name2 ∧ host = host2 ∧ endpoint = endpoint2) := by
  have hs := Split_Sprintf name host endpoint hn hh he
  refine ⟨hs, ?_, ?_⟩
  · intro st v
    simp [addEntry, hs]
  · intro name2 host2 endpoint2 hn2 hh2 he2 hk
    have hs2 := Split_Sprintf name2 host2 endpoint2 hn2 hh2 he2
    rw [← hk, hs] at hs2
    simpa using hs2

/-- C9 at the identity (cpu, h1, ep). -/
theorem key_codec_round_trip_witness :
    (SEP ∉ "cpu".toList ∧ SEP ∉ "h1".toList ∧ SEP ∉ "ep".toList)
    ∧ Split (Sprintf "cpu".toList "h1".toList "ep".toList) =
        ["cpu".toList, "h1".toList, "ep".toList] :=
  ⟨by decide,
   (@key_codec_round_trip Int "cpu".toList "h1".toList "ep".toList
      (by decide) (by decide) (by decide)).1⟩

/-- C10, counterexample. A drained list of the malformed key "a|b|h|e" followed
by 50 well-formed keys has R = 50, so ceil(R / 50) = 1, but flush builds two
statements, with 49 rows and 1 row. -/
theorem flush_chunks_before_decoding_counterexample :
    (((("a|b|h|e".toList, (0 : Int)) :: endpointEntries 50).filter validKey).length
        + MAX_CHUNK_SIZE - 1) / MAX_CHUNK_SIZE = 1
    ∧ (flush (fun _ => true)
        (⟨("a|b|h|e".toList, (0 : Int)) :: endpointEntries 50,
          60, some ⟨60⟩, "t".toList⟩ : databricksExporter Int)).map
        (fun r => r.2.1.map (fun c => c.valuePlaceholders.length)) = some [49, 1] := by
  decide

/-- C10, amended. flush cuts the drained list into blocks of 50 consecutive
entries before decode failures are dropped and builds the statement of a block
from the entries of the block whose key splits into three parts: every
statement carries at most 50 rows, and the statements that carry a row are, in
order, the rows of the blocks that hold such an entry. When every drained key
splits into three parts, flush builds exactly ceil(R / 50) statements, each
with at least 1 and at most 50 rows and each but possibly the last with
exactly 50. -/
theorem flush_chunks_before_decoding {α : Type} (exec : Nat → Bool)
    (d : databricksExporter α) :
    ∃ d1 chunks tr, flush exec d = some (d1, chunks, tr)
      ∧ (∀ c ∈ chunks, c.valuePlaceholders.length ≤ MAX_CHUNK_SIZE)
      ∧ (chunks.map (fun c => c.args)).filter (fun a => !a.isEmpty) =
          ((blocks MAX_CHUNK_SIZE d.metricBuffer).map (fun b => b.flatMap decodeRow)).filter
            (fun a => !a.isEmpty)
      ∧ ((∀ e ∈ d.metricBuffer, validKey e = true) →
          chunks.length =
            ((d.metricBuffer.filter validKey).length + MAX_CHUNK_SIZE - 1) / MAX_CHUNK_SIZE
          ∧ ∀ (k : Nat) (c : ChunkRun α), chunks[k]? = some c →
              1 ≤ c.valuePlaceholders.length
              ∧ c.valuePlaceholders.length ≤ MAX_CHUNK_SIZE
              ∧ (k + 1 < chunks.length → c.valuePlaceholders.length = MAX_CHUNK_SIZE)) := by
  obtain ⟨d1, chunks, tr, hf, -, hst, -⟩ := flush_stmts exec d
  have hlen : chunks.length = (blocks MAX_CHUNK_SIZE d.metricBuffer).length := by
    have := congrArg List.length hst
    simpa using this
  refine ⟨d1, chunks, tr, hf, ?_, ?_, ?_⟩
  · intro c hc
    obtain ⟨k, hk⟩ := List.mem_iff_getElem?.1 hc
    obtain ⟨b, hb, hrows, -, -⟩ := flush_chunk_block d chunks hst k c hk
    have hbl := (blocks_getElem_length _ k b hb).2.1
    have hfl : (b.filter validKey).length ≤ b.length := List.length_filter_le _ _
    omega
  · rw [(chunks_args_eq chunks _ hst).1]
  · intro hall
    have hR : d.metricBuffer.filter validKey = d.metricBuffer :=
      List.filter_eq_self.2 hall
    refine ⟨by rw [hlen, blocks_length, hR], ?_⟩
    intro k c hk
    obtain ⟨b, hb, hrows, -, hsub⟩ := flush_chunk_block d chunks hst k c hk
    have hb2 : b.filter validKey = b :=
      List.filter_eq_self.2 (fun e he => hall e (hsub e he))
    rw [hrows, hb2, hlen]
    exact blocks_getElem_length _ k b hb

/-- C10, amended, at a buffer of 51 well-formed entries. -/
theorem flush_chunks_before_decoding_witness :
    (∀ e ∈ endpointEntries 51, validKey e = true)
    ∧ ∃ d1 chunks tr,
        flush (fun _ => true)
          (⟨endpointEntries 51, 60, some ⟨60⟩, "t".toList⟩ : databricksExporter Int) =
            some (d1, chunks, tr)
        ∧ chunks.length = 2 := by
  have hv : ∀ e ∈ endpointEntries 51, validKey e = true := by decide
  refine ⟨hv, ?_⟩
  obtain ⟨d1, chunks, tr, hf, -, -, hex⟩ := flush_chunks_before_decoding (fun _ => true)
    (⟨endpointEntries 51, 60, some ⟨60⟩, "t".toList⟩ : databricksExporter Int)
  refine ⟨d1, chunks, tr, hf, ?_⟩
  rw [(hex hv).1, List.filter_eq_self.2 hv]
  decide

end TableExporter
